import Mathlib

/-!
Verification of the EMVCo TLV codec and CRC16 layer of the Qris repository
(`src/utils.ts`).  JavaScript strings are modelled as lists of UTF-16 code
units (`List Char`); JavaScript numbers arising in this code are integers or
NaN, modelled as `Int` / `Option`.  The 32-bit wrap of JavaScript bitwise
operators is made explicit with `% 2^32`.
-/

abbrev Str := List Char

/-- The WhiteSpace / LineTerminator code points recognised by JavaScript
`String.prototype.trim` and by `parseInt`'s leading-whitespace skip. -/
def isJsWhitespace (c : Char) : Bool :=
  c.toNat ∈ [9, 10, 11, 12, 13, 32, 160, 5760, 8192, 8193, 8194, 8195, 8196,
    8197, 8198, 8199, 8200, 8201, 8202, 8232, 8233, 8239, 8287, 12288, 65279]

/-- `staticPayload.trim()` — removes leading and trailing whitespace. -/
def jsTrim (s : Str) : Str :=
  ((s.dropWhile isJsWhitespace).reverse.dropWhile isJsWhitespace).reverse

/-- Decimal value of a digit string (the accumulator loop of `parseInt`). -/
def decValue (ds : Str) : Nat :=
  ds.foldl (fun a c => a * 10 + (c.toNat - 48)) 0

/-- Longest leading run of decimal digits; `none` when there is none
(`parseInt` then returns NaN). -/
def digitsVal (l : Str) : Option Nat :=
  let ds := l.takeWhile Char.isDigit
  if ds.isEmpty then none else some (decValue ds)

/-- `parseInt(s, 10)`: skip leading whitespace, optional sign, longest digit
prefix; `none` models NaN. -/
def jsParseInt (s : Str) : Option Int :=
  match s.dropWhile isJsWhitespace with
  | [] => none
  | c :: rest =>
    if c = '-' then (digitsVal rest).map (fun n => -(n : Int))
    else if c = '+' then (digitsVal rest).map (fun n => (n : Int))
    else (digitsVal (c :: rest)).map (fun n => (n : Int))

/-- Decimal digit character, as produced by `Number.prototype.toString()`. -/
def decDigit (d : Nat) : Char := Char.ofNat (48 + d)

/-- Uppercase hexadecimal digit character (`toString(16).toUpperCase()`). -/
def hexDigit (d : Nat) : Char :=
  if d < 10 then Char.ofNat (48 + d) else Char.ofNat (55 + d)

/-- Digit extraction loop for `n.toString()`; the fuel argument only makes
the structural recursion explicit and is always ample. -/
def natToDecAux : Nat → Nat → Str
  | 0, _ => []
  | fuel + 1, n =>
      if n < 10 then [decDigit n] else natToDecAux fuel (n / 10) ++ [decDigit (n % 10)]

/-- `n.toString()` for a natural number. -/
def natToDec (n : Nat) : Str := natToDecAux (n + 1) n

/-- Digit extraction loop for `n.toString(16)`, uppercased. -/
def natToHexAux : Nat → Nat → Str
  | 0, _ => []
  | fuel + 1, n =>
      if n < 16 then [hexDigit n] else natToHexAux fuel (n / 16) ++ [hexDigit (n % 16)]

/-- `n.toString(16)` for a natural number, already uppercased. -/
def natToHex (n : Nat) : Str := natToHexAux (n + 1) n

/-- `s.padStart(n, c)`. -/
def padStart (s : Str) (n : Nat) (c : Char) : Str :=
  List.replicate (n - s.length) c ++ s

/-- The 2-digit zero-padded length field `value.length.toString().padStart(2, '0')`. -/
def pad2 (n : Nat) : Str := padStart (natToDec n) 2 '0'

/-- Reduction of a JavaScript bitwise result to 32 bits (`ToInt32`, viewed
unsigned; only the low 16 bits are ever observed downstream). -/
def wrap32 (n : Nat) : Nat := n % 4294967296

/-- One inner-loop iteration of `crc16`:
`if ((crc & 0x8000) !== 0) crc = (crc << 1) ^ poly; else crc = crc << 1`. -/
def crcShift (c : Nat) : Nat :=
  if c &&& 32768 ≠ 0 then wrap32 (c <<< 1) ^^^ 4129 else wrap32 (c <<< 1)

/-- One character step of `crc16`: XOR the code unit into the high byte, run
8 shift iterations, then `crc &= 0xFFFF`. -/
def crcByte (crc code : Nat) : Nat :=
  (crcShift^[8] (crc ^^^ (code <<< 8))) &&& 65535

/-- The register value after the character loop of `crc16` (initial 0xFFFF). -/
def crc16Reg (data : Str) : Nat :=
  data.foldl (fun crc ch => crcByte crc ch.toNat) 65535

/-- `crc16(data)`: the register rendered as 4 uppercase hex characters. -/
def crc16 (data : Str) : Str := padStart (natToHex (crc16Reg data)) 4 '0'

/-- Modelled from the spec (§4.1), for comparison in claim C3: the same
algorithm but with the register masked to 16 bits after each bit iteration. -/
def specShift (c : Nat) : Nat :=
  (if c &&& 32768 ≠ 0 then (c <<< 1) ^^^ 4129 else c <<< 1) &&& 65535

/-- Modelled from the spec (§4.1): register after processing all characters. -/
def specCrcReg (data : Str) : Nat :=
  data.foldl (fun crc ch => specShift^[8] (crc ^^^ (ch.toNat <<< 8))) 65535

/-- Modelled from the spec (§4.1): 4 uppercase zero-padded hex characters. -/
def specCrc16 (data : Str) : Str := padStart (natToHex (specCrcReg data)) 4 '0'

/-- First-match association lookup, as `Map.prototype.get`. -/
def assocLookup (m : List (Str × Str)) (k : Str) : Option Str :=
  match m with
  | [] => none
  | p :: rest => if p.1 = k then some p.2 else assocLookup rest k

/-- `Map.prototype.set`: updating an existing key keeps its insertion
position; a fresh key is appended. -/
def mapSet (m : List (Str × Str)) (k v : Str) : List (Str × Str) :=
  if k ∈ m.map Prod.fst then m.map (fun p => if p.1 = k then (k, v) else p)
  else m ++ [(k, v)]

/-- `String.prototype.substring(a, b)`: both indices clamped to `[0, length]`
and swapped when out of order.  A NaN index is passed here as `0`, which is
what `ToIntegerOrInfinity` produces for it. -/
def jsSubstring (s : Str) (a b : Int) : Str :=
  let n : Int := s.length
  let a2 := (min (max a 0) n).toNat
  let b2 := (min (max b 0) n).toNat
  (s.take (max a2 b2)).drop (min a2 b2)

/-- The scan loop of `parseTLV`.  `fuel` bounds the number of iterations; the
loop in the source has no such bound and genuinely diverges on some inputs
(see claim C7), so `none` models nontermination.  When the length field is
not numeric (`parseInt` gives NaN) the value becomes
`substring(i+4, NaN) = substring(i+4, 0)` and `i += NaN` makes the `while`
condition false, ending the scan after this record. -/
def parseTLVGo (payload : Str) (fuel : Nat) (i : Int) (tags : List (Str × Str)) :
    Option (List (Str × Str)) :=
  match fuel with
  | 0 => none
  | fuel + 1 =>
    if i < (payload.length : Int) then
      let tag := jsSubstring payload i (i + 2)
      match jsParseInt (jsSubstring payload (i + 2) (i + 4)) with
      | some len =>
        parseTLVGo payload fuel (i + 4 + len)
          (mapSet tags tag (jsSubstring payload (i + 4) (i + 4 + len)))
      | none =>
        some (mapSet tags tag (jsSubstring payload (i + 4) 0))
    else some tags

/-- `parseTLV(payload)`.  Any terminating run of the source loop takes at
most `length + 120` iterations (the cursor moves by `4 + len` with
`len ≥ -9`, and a revisited cursor value means the loop cycles forever), so
this fuel is exact: `none` if and only if the source loop diverges. -/
def parseTLV (payload : Str) : Option (List (Str × Str)) :=
  parseTLVGo payload (payload.length + 120) 0 []

/-- Sort key of the comparator `(a, b) => parseInt(a, 10) - parseInt(b, 10)`.
When a tag is not numeric the comparator returns NaN and ECMAScript leaves
the order implementation-defined; the model resolves NaN to key 0.  All
ordering claims restrict to numeric tags, where the comparator is consistent
and the model agrees exactly with the (mandated stable) `Array.prototype.sort`. -/
def intKey (t : Str) : Int := (jsParseInt t).getD 0

/-- The comparator order used by `serializeTLV`. -/
def tagLe (a b : Str) : Prop := intKey a ≤ intKey b

instance : DecidableRel tagLe :=
  fun a b => inferInstanceAs (Decidable (intKey a ≤ intKey b))

instance : IsTotal Str tagLe := ⟨fun a b => Int.le_total (intKey a) (intKey b)⟩

instance : IsTrans Str tagLe := ⟨fun _ _ _ h1 h2 => le_trans h1 h2⟩

/-- One emitted record: `tag + length + value` with
`value = tags.get(tag) || ''`. -/
def recordOf (tags : List (Str × Str)) (t : Str) : Str :=
  let v := (assocLookup tags t).getD []
  t ++ pad2 v.length ++ v

/-- `serializeTLV(tags, excludeTags)`: keys sorted by the numeric comparator
(a stable sort, as ECMAScript mandates), excluded tags skipped, records
concatenated. -/
def serializeTLV (tags : List (Str × Str)) (excludeTags : List Str) : Str :=
  let sortedTags := List.insertionSort tagLe (tags.map Prod.fst)
  sortedTags.foldl
    (fun result tag => if tag ∈ excludeTags then result else result ++ recordOf tags tag) []

def tag01 : Str := ['0', '1']

def tag54 : Str := ['5', '4']

def tag63 : Str := ['6', '3']

/-- `generateDynamicQris(staticPayload, amount)`.  The body of the source's
`try` block contains no throwing operation (`parseInt`, `substring`,
`Map.set`, `sort` and string concatenation never throw), so the `catch`
fallback is not modelled as a reachable branch; `none` records the one way
the call can fail to produce a value, namely divergence of the parse scan. -/
def generateDynamicQris (staticPayload : Str) (amount : Str) : Option Str :=
  match parseTLV (jsTrim staticPayload) with
  | none => none
  | some tags =>
    let tags1 := mapSet tags tag01 ['1', '2']
    let tags2 := mapSet tags1 tag54 amount
    let basePayload := serializeTLV tags2 [tag63] ++ ['6', '3', '0', '4']
    some (basePayload ++ crc16 basePayload)

/-- Concatenation of TLV records, used to describe well-formed payloads. -/
def renderRecords (recs : List (Str × Str)) : Str :=
  (recs.map (fun p => p.1 ++ pad2 p.2.length ++ p.2)).flatten

/-- The emitted key sequence of `serializeTLV`: sorted, minus exclusions. -/
def emittedKeys (tags : List (Str × Str)) (excludeTags : List Str) : List Str :=
  (List.insertionSort tagLe (tags.map Prod.fst)).filter
    (fun t => decide (t ∉ excludeTags))

/-! ### Characters and digit strings -/

theorem toNat_ofNat_of_lt {n : Nat} (h : n < 55296) : (Char.ofNat n).toNat = n := by
  have hv : n.isValidChar := Or.inl h
  unfold Char.ofNat
  rw [dif_pos hv]
  rfl

theorem decDigit_toNat {d : Nat} (h : d < 10) : (decDigit d).toNat = 48 + d :=
  toNat_ofNat_of_lt (by omega)

/-- Uppercase hexadecimal digits, the character class of a checksum. -/
def isHexUpperDigit (c : Char) : Bool :=
  (48 ≤ c.toNat && c.toNat ≤ 57) || (65 ≤ c.toNat && c.toNat ≤ 70)

theorem isHexUpperDigit_hexDigit {d : Nat} (h : d < 16) :
    isHexUpperDigit (hexDigit d) = true := by
  have ht : (hexDigit d).toNat = if d < 10 then 48 + d else 55 + d := by
    unfold hexDigit
    by_cases h10 : d < 10
    · rw [if_pos h10, if_pos h10]; exact toNat_ofNat_of_lt (by omega)
    · rw [if_neg h10, if_neg h10]; exact toNat_ofNat_of_lt (by omega)
  unfold isHexUpperDigit
  rw [ht]
  by_cases h10 : d < 10 <;> simp [h10] <;> omega

theorem natToDecAux_fuel :
    ∀ (f n g : Nat), n < f → n < g → natToDecAux f n = natToDecAux g n := by
  intro f
  induction f with
  | zero => intro n g h; omega
  | succ f ih =>
    intro n g hf hg
    match g with
    | g + 1 =>
      unfold natToDecAux
      by_cases h : n < 10
      · simp [h]
      · simp only [if_neg h]
        rw [ih (n / 10) g (by omega) (by omega)]

theorem natToDecAux_eq {f n : Nat} (h : n < f) : natToDecAux f n = natToDec n :=
  natToDecAux_fuel f n (n + 1) h (by omega)

theorem natToDec_small {n : Nat} (h : n < 10) : natToDec n = [decDigit n] := by
  unfold natToDec natToDecAux
  simp [h]

theorem natToDec_two {n : Nat} (h1 : 10 ≤ n) (h2 : n < 100) :
    natToDec n = [decDigit (n / 10), decDigit (n % 10)] := by
  unfold natToDec
  simp only [natToDecAux, if_neg (by omega : ¬ n < 10)]
  rw [natToDecAux_eq (by omega), natToDec_small (by omega)]
  rfl

theorem natToDec_len_pos (n : Nat) : 0 < (natToDec n).length := by
  unfold natToDec
  simp only [natToDecAux]
  by_cases h : n < 10 <;> simp [h]

theorem natToDec_len_ge2 {n : Nat} (h : 10 ≤ n) : 2 ≤ (natToDec n).length := by
  unfold natToDec
  simp only [natToDecAux, if_neg (by omega : ¬ n < 10)]
  rw [natToDecAux_eq (by omega)]
  have := natToDec_len_pos (n / 10)
  simp only [List.length_append, List.length_cons, List.length_nil]
  omega

theorem natToDec_len_ge3 {n : Nat} (h : 100 ≤ n) : 3 ≤ (natToDec n).length := by
  unfold natToDec
  simp only [natToDecAux, if_neg (by omega : ¬ n < 10)]
  rw [natToDecAux_eq (by omega)]
  have := @natToDec_len_ge2 (n / 10) (by omega)
  simp only [List.length_append, List.length_cons, List.length_nil]
  omega

theorem pad2_small {n : Nat} (h : n < 10) : pad2 n = ['0', decDigit n] := by
  unfold pad2 padStart
  rw [natToDec_small h]
  rfl

theorem pad2_two {n : Nat} (h1 : 10 ≤ n) (h2 : n < 100) :
    pad2 n = [decDigit (n / 10), decDigit (n % 10)] := by
  unfold pad2 padStart
  rw [natToDec_two h1 h2]
  rfl

theorem pad2_length {n : Nat} (h : n < 100) : (pad2 n).length = 2 := by
  by_cases h10 : n < 10
  · rw [pad2_small h10]; rfl
  · rw [pad2_two (by omega) h]; rfl

theorem pad2_len_ge3 {n : Nat} (h : 100 ≤ n) : 3 ≤ (pad2 n).length := by
  unfold pad2 padStart
  have := natToDec_len_ge3 h
  simp only [List.length_append, List.length_replicate]
  omega

theorem natToHexAux_fuel :
    ∀ (f n g : Nat), n < f → n < g → natToHexAux f n = natToHexAux g n := by
  intro f
  induction f with
  | zero => intro n g h; omega
  | succ f ih =>
    intro n g hf hg
    match g with
    | g + 1 =>
      unfold natToHexAux
      by_cases h : n < 16
      · simp [h]
      · simp only [if_neg h]
        rw [ih (n / 16) g (by omega) (by omega)]

theorem natToHexAux_eq {f n : Nat} (h : n < f) : natToHexAux f n = natToHex n :=
  natToHexAux_fuel f n (n + 1) h (by omega)

theorem natToHex_small {n : Nat} (h : n < 16) : natToHex n = [hexDigit n] := by
  unfold natToHex natToHexAux
  simp [h]

theorem natToHex_step {n : Nat} (h : ¬ n < 16) :
    natToHex n = natToHex (n / 16) ++ [hexDigit (n % 16)] := by
  have e1 : natToHex n =
      if n < 16 then [hexDigit n] else natToHexAux n (n / 16) ++ [hexDigit (n % 16)] := rfl
  rw [e1, if_neg h, natToHexAux_eq (by omega)]

theorem natToHex_len_le : ∀ (k n : Nat), n < 16 ^ k → 0 < k → (natToHex n).length ≤ k := by
  intro k
  induction k with
  | zero => intro n h hk; omega
  | succ k ih =>
    intro n h _
    by_cases h16 : n < 16
    · rw [natToHex_small h16]; simp
    · rw [natToHex_step h16]
      have hdiv : n / 16 < 16 ^ k := by
        rw [Nat.div_lt_iff_lt_mul (by omega)]
        calc n < 16 ^ (k + 1) := h
          _ = 16 ^ k * 16 := by rw [pow_succ]
      have hk : 0 < k := by
        by_contra hk0
        have : k = 0 := by omega
        subst this
        simp at hdiv
        omega
      have := ih (n / 16) hdiv hk
      simp only [List.length_append, List.length_cons, List.length_nil]
      omega

theorem natToHex_chars (n : Nat) : (natToHex n).all isHexUpperDigit = true := by
  induction n using Nat.strong_induction_on with
  | _ n ih =>
    by_cases h16 : n < 16
    · rw [natToHex_small h16]
      simp [isHexUpperDigit_hexDigit h16]
    · rw [natToHex_step h16]
      rw [List.all_append]
      have h1 := ih (n / 16) (Nat.div_lt_self (by omega) (by omega))
      have h2 := @isHexUpperDigit_hexDigit (n % 16) (by omega)
      simp [h1, h2]

/-! ### CRC register congruences -/

theorem xorModPow (a b k : Nat) : (a ^^^ b) % 2 ^ k = a % 2 ^ k ^^^ b % 2 ^ k := by
  apply Nat.eq_of_testBit_eq
  intro i
  simp only [Nat.testBit_mod_two_pow, Nat.testBit_xor]
  by_cases h : i < k <;> simp [h]

theorem xorMod65536 (a b : Nat) : (a ^^^ b) % 65536 = a % 65536 ^^^ b % 65536 := by
  have e : (65536 : Nat) = 2 ^ 16 := by norm_num
  rw [e]
  exact xorModPow a b 16

theorem testBit_eq_of_mod {a b k i : Nat} (h : a % 2 ^ k = b % 2 ^ k) (hi : i < k) :
    a.testBit i = b.testBit i := by
  have hc := congrArg (fun x => x.testBit i) h
  simpa [Nat.testBit_mod_two_pow, hi] using hc

theorem and32768_congr {a b : Nat} (h : a % 65536 = b % 65536) :
    a &&& 32768 = b &&& 32768 := by
  have e : (65536 : Nat) = 2 ^ 16 := by norm_num
  rw [e] at h
  have ht : a.testBit 15 = b.testBit 15 := testBit_eq_of_mod h (by omega)
  have e2 : (32768 : Nat) = 2 ^ 15 := by norm_num
  rw [e2, Nat.and_two_pow, Nat.and_two_pow, ht]

theorem crcShift_congr {a b : Nat} (h : a % 65536 = b % 65536) :
    crcShift a % 65536 = crcShift b % 65536 := by
  unfold crcShift wrap32
  rw [and32768_congr h]
  have hs : (a <<< 1) % 4294967296 % 65536 = (b <<< 1) % 4294967296 % 65536 := by
    rw [Nat.shiftLeft_eq, Nat.shiftLeft_eq]
    omega
  by_cases hb : b &&& 32768 ≠ 0
  · rw [if_pos hb, if_pos hb, xorMod65536, xorMod65536, hs]
  · rw [if_neg hb, if_neg hb]
    exact hs

theorem specShift_eq_crcShift {a b : Nat} (h : a % 65536 = b % 65536) :
    specShift a = crcShift b % 65536 := by
  unfold specShift crcShift wrap32
  rw [and32768_congr h]
  have e : (65535 : Nat) = 2 ^ 16 - 1 := by norm_num
  have e2 : (2 : Nat) ^ 16 = 65536 := by norm_num
  have hs : (a <<< 1) % 65536 = (b <<< 1) % 4294967296 % 65536 := by
    rw [Nat.shiftLeft_eq, Nat.shiftLeft_eq]
    omega
  by_cases hb : b &&& 32768 ≠ 0
  · rw [if_pos hb, if_pos hb, e, Nat.and_pow_two_sub_one_eq_mod, e2,
      xorMod65536, xorMod65536, hs]
  · rw [if_neg hb, if_neg hb, e, Nat.and_pow_two_sub_one_eq_mod, e2, hs]

theorem crcShift_iter_congr (k : Nat) : ∀ {a b : Nat}, a % 65536 = b % 65536 →
    crcShift^[k] a % 65536 = crcShift^[k] b % 65536 := by
  induction k with
  | zero => intro a b h; exact h
  | succ k ih =>
    intro a b h
    rw [Function.iterate_succ_apply', Function.iterate_succ_apply']
    exact crcShift_congr (ih h)

theorem specShift_iter_eq (k : Nat) : ∀ {a b : Nat}, a % 65536 = b % 65536 →
    specShift^[k + 1] a = crcShift^[k + 1] b % 65536 := by
  induction k with
  | zero =>
    intro a b h
    simpa using specShift_eq_crcShift h
  | succ k ih =>
    intro a b h
    rw [Function.iterate_succ_apply' specShift (k + 1) a,
      Function.iterate_succ_apply' crcShift (k + 1) b]
    have h2 := ih h
    have h3 : specShift^[k + 1] a % 65536 = crcShift^[k + 1] b % 65536 := by
      rw [h2]
      omega
    exact specShift_eq_crcShift h3

theorem crcByte_eq_spec (crc code : Nat) :
    crcByte crc code = specShift^[8] (crc ^^^ code <<< 8) := by
  unfold crcByte
  have e : (65535 : Nat) = 2 ^ 16 - 1 := by norm_num
  have e2 : (2 : Nat) ^ 16 = 65536 := by norm_num
  rw [e, Nat.and_pow_two_sub_one_eq_mod, e2]
  exact (specShift_iter_eq 7 rfl).symm

theorem crc16Reg_eq_spec (data : Str) : crc16Reg data = specCrcReg data := by
  unfold crc16Reg specCrcReg
  congr 1
  funext crc ch
  exact crcByte_eq_spec crc ch.toNat

theorem crcByte_lt (crc code : Nat) : crcByte crc code < 65536 := by
  unfold crcByte
  have h := @Nat.and_le_right (crcShift^[8] (crc ^^^ code <<< 8)) 65535
  omega

theorem foldl_crcByte_lt (data : Str) : ∀ (init : Nat), init < 65536 →
    data.foldl (fun crc ch => crcByte crc ch.toNat) init < 65536 := by
  induction data with
  | nil => intro init h; exact h
  | cons c rest ih =>
    intro init _
    exact ih _ (crcByte_lt _ _)

theorem crc16Reg_lt (data : Str) : crc16Reg data < 65536 :=
  foldl_crcByte_lt data 65535 (by omega)

theorem crc16_length (data : Str) : (crc16 data).length = 4 := by
  unfold crc16 padStart
  have h1 : (natToHex (crc16Reg data)).length ≤ 4 := by
    apply natToHex_len_le 4 _ _ (by omega)
    have := crc16Reg_lt data
    norm_num
    omega
  simp only [List.length_append, List.length_replicate]
  omega

theorem crc16_all_hex (data : Str) : (crc16 data).all isHexUpperDigit = true := by
  unfold crc16 padStart
  rw [List.all_append]
  have h1 : (List.replicate (4 - (natToHex (crc16Reg data)).length) '0').all
      isHexUpperDigit = true := by
    rw [List.all_eq_true]
    intro c hc
    rw [List.eq_of_mem_replicate hc]
    rfl
  rw [h1, natToHex_chars]
  rfl

theorem crc16_reduce_char (pre post : Str) (c c' : Char) (h : c'.toNat = c.toNat % 256) :
    crc16 (pre ++ c :: post) = crc16 (pre ++ c' :: post) := by
  have hbyte : ∀ (r : Nat), crcByte r c.toNat = crcByte r c'.toNat := by
    intro r
    rw [h]
    unfold crcByte
    have hx : (r ^^^ c.toNat <<< 8) % 65536 = (r ^^^ (c.toNat % 256) <<< 8) % 65536 := by
      rw [Nat.shiftLeft_eq, Nat.shiftLeft_eq, xorMod65536, xorMod65536]
      have e8 : (2 : Nat) ^ 8 = 256 := by norm_num
      rw [e8]
      have : c.toNat * 256 % 65536 = c.toNat % 256 * 256 % 65536 := by omega
      rw [this]
    have hiter := crcShift_iter_congr 8 hx
    have e : (65535 : Nat) = 2 ^ 16 - 1 := by norm_num
    have e2 : (2 : Nat) ^ 16 = 65536 := by norm_num
    rw [e, Nat.and_pow_two_sub_one_eq_mod, Nat.and_pow_two_sub_one_eq_mod, e2]
    exact hiter
  have hreg : crc16Reg (pre ++ c :: post) = crc16Reg (pre ++ c' :: post) := by
    unfold crc16Reg
    rw [List.foldl_append, List.foldl_append, List.foldl_cons, List.foldl_cons, hbyte]
  unfold crc16
  rw [hreg]

/-- C3: for every input character sequence, `crc16` returns the 4-character
uppercase zero-padded hexadecimal rendering of the CRC16-CCITT register
(polynomial 0x1021, initial value 0xFFFF) computed by the spec's bit-by-bit
algorithm in which the register is masked to 16 bits after each bit
iteration; in particular `crc16("") = "FFFF"`. -/
theorem claim_C3_crc16_matches_spec (data : Str) :
    crc16 data = specCrc16 data ∧ (crc16 data).length = 4 ∧
      (crc16 data).all isHexUpperDigit = true ∧ crc16 [] = ['F', 'F', 'F', 'F'] := by
  refine ⟨?_, crc16_length data, crc16_all_hex data, by decide⟩
  unfold crc16 specCrc16
  rw [crc16Reg_eq_spec]

/-- C8 counterexample: the claim is false — there is no input on which a high
code point changes the checksum relative to its reduction mod 256, because the
extra bits land strictly above bit 15 and are discarded by the final mask. -/
theorem claim_C8_counterexample :
    ¬ ∃ (pre post : Str) (c c' : Char), 255 < c.toNat ∧ c'.toNat = c.toNat % 256 ∧
        crc16 (pre ++ c :: post) ≠ crc16 (pre ++ c' :: post) := by
  rintro ⟨pre, post, c, c', _, h, hne⟩
  exact hne (crc16_reduce_char pre post c c' h)

/-- C8 amended: `crc16`'s shift-XOR does not let high code-point bits reach
the checksum: replacing a character whose code point exceeds 255 by its value
modulo 256 never changes the result. -/
theorem claim_C8_amended (pre post : Str) (c c' : Char) (_hc : 255 < c.toNat)
    (h : c'.toNat = c.toNat % 256) :
    crc16 (pre ++ c :: post) = crc16 (pre ++ c' :: post) :=
  crc16_reduce_char pre post c c' h

theorem claim_C8_witness :
    255 < ('Ā' : Char).toNat ∧ (Char.ofNat 0).toNat = ('Ā' : Char).toNat % 256 ∧
      crc16 ([] ++ 'Ā' :: []) = crc16 ([] ++ Char.ofNat 0 :: []) :=
  ⟨by decide, by decide,
    claim_C8_amended [] [] 'Ā' (Char.ofNat 0) (by decide) (by decide)⟩

/-- C7: the claim that all four operations terminate on every input is wrong
on the code — on payload `"00-4"` the parse loop's length field parses as
`-4`, the cursor advances by `4 + (-4) = 0`, and the `while` loop spins
forever: the scan returns no result at any fuel, and `generateDynamicQris`
on that payload diverges (modelled as `none`) for every amount. -/
theorem claim_C7_nontermination :
    (∀ (fuel : Nat) (tags : List (Str × Str)),
        parseTLVGo "00-4".toList fuel 0 tags = none) ∧
      ∀ (amount : Str), generateDynamicQris "00-4".toList amount = none := by
  have key : ∀ (fuel : Nat) (tags : List (Str × Str)),
      parseTLVGo "00-4".toList fuel 0 tags = none := by
    intro fuel
    induction fuel with
    | zero => intro tags; rfl
    | succ fuel ih =>
      intro tags
      have step : parseTLVGo "00-4".toList (fuel + 1) 0 tags =
          parseTLVGo "00-4".toList fuel 0
            (mapSet tags "00".toList "00-4".toList) := rfl
      rw [step]
      exact ih _
  refine ⟨key, ?_⟩
  intro amount
  have ht : jsTrim "00-4".toList = "00-4".toList := by decide
  have hp : parseTLV "00-4".toList = none := by
    unfold parseTLV
    exact key _ _
  unfold generateDynamicQris
  rw [ht, hp]

/-- C1: the claim (malformed length fields make `parseTLV` fail and
`generateDynamicQris` fall back to returning the input unchanged) is wrong on
the code: `parseInt` yields NaN without throwing, the partial record is
silently accepted, and the transformer returns a rebuilt payload different
from its input — both for a non-numeric length field (`"00XX"`) and for a
declared length that reads past the end (`"0005ab"`). -/
theorem claim_C1_no_malformed_failure :
    (generateDynamicQris "00XX".toList "1".toList).isSome = true ∧
      generateDynamicQris "00XX".toList "1".toList ≠ some ("00XX".toList) ∧
      (generateDynamicQris "0005ab".toList "1".toList).isSome = true ∧
      generateDynamicQris "0005ab".toList "1".toList ≠ some ("0005ab".toList) :=
  ⟨by decide, by decide, by decide, by decide⟩

/-! ### Substring extraction and length-field parsing -/

theorem jsSubstring_nat (s : Str) (a b : Nat) (hab : a ≤ b) (hb : b ≤ s.length) :
    jsSubstring s (a : Int) (b : Int) = (s.drop a).take (b - a) := by
  unfold jsSubstring
  have h1 : max (a : Int) 0 = (a : Int) := max_eq_left (by omega)
  have h2 : min (a : Int) (s.length : Int) = (a : Int) := min_eq_left (by omega)
  have h3 : max (b : Int) 0 = (b : Int) := max_eq_left (by omega)
  have h4 : min (b : Int) (s.length : Int) = (b : Int) := min_eq_left (by omega)
  simp only [h1, h2, h3, h4, Int.toNat_ofNat]
  rw [Nat.max_eq_right hab, Nat.min_eq_left hab]
  rw [List.drop_take]

theorem jsSubstring_seg (pre mid post : Str) :
    jsSubstring (pre ++ (mid ++ post)) (pre.length : Int)
      ((pre.length + mid.length : Nat) : Int) = mid := by
  rw [jsSubstring_nat _ _ _ (by omega) (by simp only [List.length_append]; omega)]
  rw [List.drop_left' (by rfl)]
  have : pre.length + mid.length - pre.length = mid.length := by omega
  rw [this, List.take_left' rfl]

theorem decDigit_props {d : Nat} (h : d < 10) :
    (decDigit d).isDigit = true ∧ isJsWhitespace (decDigit d) = false ∧
      decDigit d ≠ '-' ∧ decDigit d ≠ '+' := by
  interval_cases d <;> exact ⟨by decide, by decide, by decide, by decide⟩

theorem jsParseInt_two_digits (c1 c2 : Char) (d1 d2 : Nat) (h1 : d1 < 10) (h2 : d2 < 10)
    (e1 : c1 = decDigit d1) (e2 : c2 = decDigit d2) :
    jsParseInt [c1, c2] = some ((d1 * 10 + d2 : Nat) : Int) := by
  subst e1 e2
  obtain ⟨ha1, hb1, hc1, hd1⟩ := decDigit_props h1
  obtain ⟨ha2, hb2, hc2, hd2⟩ := decDigit_props h2
  unfold jsParseInt
  rw [List.dropWhile_cons]
  simp only [hb1, Bool.false_eq_true, if_false]
  rw [if_neg hc1, if_neg hd1]
  unfold digitsVal
  simp only [List.takeWhile_cons, ha1, ha2, List.takeWhile_nil, if_true]
  simp only [List.isEmpty_cons, Option.map_some]
  unfold decValue
  simp only [List.foldl_cons, List.foldl_nil]
  rw [decDigit_toNat h1, decDigit_toNat h2]
  norm_num

theorem jsParseInt_pad2 {n : Nat} (h : n ≤ 99) :
    jsParseInt (pad2 n) = some (n : Int) := by
  by_cases h10 : n < 10
  · rw [pad2_small h10]
    have e0 : ('0' : Char) = decDigit 0 := by decide
    have := jsParseInt_two_digits '0' (decDigit n) 0 n (by omega) h10 e0 rfl
    simpa using this
  · rw [pad2_two (by omega) (by omega)]
    have := jsParseInt_two_digits (decDigit (n / 10)) (decDigit (n % 10))
      (n / 10) (n % 10) (by omega) (by omega) rfl rfl
    rw [this]
    congr 1
    omega

/-! ### Association list and map lemmas -/

theorem assocLookup_append (m1 m2 : List (Str × Str)) (k : Str) :
    assocLookup (m1 ++ m2) k =
      match assocLookup m1 k with
      | some v => some v
      | none => assocLookup m2 k := by
  induction m1 with
  | nil => rfl
  | cons p rest ih =>
    by_cases h : p.1 = k
    · simp only [List.cons_append, assocLookup, if_pos h]
    · simp only [List.cons_append, assocLookup, if_neg h]
      exact ih

theorem assocLookup_append_left {m1 : List (Str × Str)} {k : Str} {v : Str}
    (m2 : List (Str × Str)) (h : assocLookup m1 k = some v) :
    assocLookup (m1 ++ m2) k = some v := by
  rw [assocLookup_append, h]

theorem assocLookup_eq_none {m : List (Str × Str)} {k : Str}
    (h : k ∉ m.map Prod.fst) : assocLookup m k = none := by
  induction m with
  | nil => rfl
  | cons p rest ih =>
    simp only [List.map_cons, List.mem_cons] at h
    push_neg at h
    have hp : p.1 ≠ k := fun e => h.1 e.symm
    simp only [assocLookup, if_neg hp]
    exact ih h.2

theorem assocLookup_append_right {m1 : List (Str × Str)} {k : Str}
    (m2 : List (Str × Str)) (h : k ∉ m1.map Prod.fst) :
    assocLookup (m1 ++ m2) k = assocLookup m2 k := by
  rw [assocLookup_append, assocLookup_eq_none h]

theorem assocLookup_isSome_of_mem {m : List (Str × Str)} {k : Str}
    (h : k ∈ m.map Prod.fst) : ∃ v, assocLookup m k = some v := by
  induction m with
  | nil => simp at h
  | cons p rest ih =>
    by_cases hp : p.1 = k
    · exact ⟨p.2, by simp [assocLookup, hp]⟩
    · simp only [List.map_cons, List.mem_cons] at h
      rcases h with h | h
      · exact absurd h.symm hp
      · obtain ⟨v, hv⟩ := ih h
        exact ⟨v, by simp [assocLookup, hp, hv]⟩

theorem assocLookup_mem {m : List (Str × Str)} {k v : Str}
    (h : assocLookup m k = some v) : (k, v) ∈ m := by
  induction m with
  | nil => simp [assocLookup] at h
  | cons p rest ih =>
    by_cases hp : p.1 = k
    · simp only [assocLookup, if_pos hp, Option.some_inj] at h
      have hpv : p = (k, v) := by
        cases p
        simp only [Prod.mk.injEq]
        exact ⟨hp, h⟩
      rw [hpv]
      exact List.mem_cons_self _ _
    · simp only [assocLookup, if_neg hp] at h
      exact List.mem_cons_of_mem _ (ih h)

theorem assocLookup_of_mem_nodup {m : List (Str × Str)} {k v : Str}
    (hnd : (m.map Prod.fst).Nodup) (h : (k, v) ∈ m) : assocLookup m k = some v := by
  induction m with
  | nil => simp at h
  | cons p rest ih =>
    simp only [List.map_cons, List.nodup_cons] at hnd
    rcases List.mem_cons.mp h with h1 | h1
    · subst h1
      simp [assocLookup]
    · have hp : p.1 ≠ k := by
        intro e
        exact hnd.1 (e ▸ (List.mem_map.mpr ⟨(k, v), h1, rfl⟩))
      simp only [assocLookup, if_neg hp]
      exact ih hnd.2 h1

theorem keys_mapSet_mem {m : List (Str × Str)} {k : Str} (v : Str)
    (h : k ∈ m.map Prod.fst) : (mapSet m k v).map Prod.fst = m.map Prod.fst := by
  unfold mapSet
  rw [if_pos h, List.map_map]
  apply List.map_congr_left
  intro p _
  simp only [Function.comp_apply]
  by_cases hp : p.1 = k
  · rw [if_pos hp]
    exact hp.symm
  · rw [if_neg hp]

theorem keys_mapSet_notmem {m : List (Str × Str)} {k : Str} (v : Str)
    (h : k ∉ m.map Prod.fst) : (mapSet m k v).map Prod.fst = m.map Prod.fst ++ [k] := by
  unfold mapSet
  rw [if_neg h, List.map_append]
  rfl

theorem assocLookup_map_replace_self (m : List (Str × Str)) (k v : Str)
    (h : k ∈ m.map Prod.fst) :
    assocLookup (m.map (fun p => if p.1 = k then (k, v) else p)) k = some v := by
  induction m with
  | nil => simp at h
  | cons p rest ih =>
    simp only [List.map_cons]
    by_cases hp : p.1 = k
    · rw [if_pos hp]
      simp [assocLookup]
    · rw [if_neg hp]
      simp only [assocLookup, if_neg hp]
      apply ih
      simp only [List.map_cons, List.mem_cons] at h
      rcases h with h1 | h1
      · exact absurd h1.symm hp
      · exact h1

theorem assocLookup_map_replace_ne (m : List (Str × Str)) (k v : Str) {q : Str}
    (hq : q ≠ k) :
    assocLookup (m.map (fun p => if p.1 = k then (k, v) else p)) q = assocLookup m q := by
  induction m with
  | nil => rfl
  | cons p rest ih =>
    simp only [List.map_cons]
    by_cases hp : p.1 = k
    · rw [if_pos hp]
      have h1 : ((k, v) : Str × Str).1 ≠ q := fun e => hq e.symm
      have h2 : p.1 ≠ q := fun e => hq (hp ▸ e).symm
      simp only [assocLookup, if_neg h1, if_neg h2]
      exact ih
    · rw [if_neg hp]
      by_cases hpq : p.1 = q
      · simp only [assocLookup, if_pos hpq]
      · simp only [assocLookup, if_neg hpq]
        exact ih

theorem assocLookup_mapSet_self (m : List (Str × Str)) (k v : Str) :
    assocLookup (mapSet m k v) k = some v := by
  unfold mapSet
  by_cases h : k ∈ m.map Prod.fst
  · rw [if_pos h]
    exact assocLookup_map_replace_self m k v h
  · rw [if_neg h]
    rw [assocLookup_append_right _ h]
    simp [assocLookup]

theorem assocLookup_mapSet_ne (m : List (Str × Str)) (k v : Str) {q : Str}
    (hq : q ≠ k) : assocLookup (mapSet m k v) q = assocLookup m q := by
  unfold mapSet
  by_cases h : k ∈ m.map Prod.fst
  · rw [if_pos h]
    exact assocLookup_map_replace_ne m k v hq
  · rw [if_neg h, assocLookup_append]
    cases hlu : assocLookup m q with
    | some v2 => rfl
    | none =>
      have h1 : ((k, v) : Str × Str).1 ≠ q := fun e => hq e.symm
      simp [assocLookup, h1]

/-! ### Serializer structure -/

theorem foldl_serialize (tags : List (Str × Str)) (ex : List Str) :
    ∀ (l : List Str) (acc : Str),
      l.foldl (fun result tag =>
        if tag ∈ ex then result else result ++ recordOf tags tag) acc =
      acc ++ ((l.filter (fun t => decide (t ∉ ex))).map (recordOf tags)).flatten := by
  intro l
  induction l with
  | nil => intro acc; simp
  | cons t rest ih =>
    intro acc
    by_cases h : t ∈ ex
    · rw [List.foldl_cons, if_pos h, ih, List.filter_cons]
      have hf : (decide (t ∉ ex)) = false := by simp [h]
      rw [hf]
      simp
    · rw [List.foldl_cons, if_neg h, ih, List.filter_cons]
      have hf : (decide (t ∉ ex)) = true := by simp [h]
      rw [hf]
      simp [List.append_assoc]

theorem serializeTLV_eq (tags : List (Str × Str)) (ex : List Str) :
    serializeTLV tags ex = ((emittedKeys tags ex).map (recordOf tags)).flatten := by
  unfold serializeTLV emittedKeys
  rw [foldl_serialize]
  rfl

theorem flatten_map_split {l : List Str} {t : Str} (f : Str → Str) (h : t ∈ l) :
    ∃ u w, (l.map f).flatten = u ++ f t ++ w := by
  obtain ⟨s, s2, rfl⟩ := List.append_of_mem h
  refine ⟨(s.map f).flatten, (s2.map f).flatten, ?_⟩
  simp [List.map_append, List.flatten_append, List.append_assoc]

theorem mem_emittedKeys (ex : List Str) {tags : List (Str × Str)} {t : Str}
    (hmem : t ∈ tags.map Prod.fst) (hex : t ∉ ex) : t ∈ emittedKeys tags ex := by
  unfold emittedKeys
  rw [List.mem_filter]
  refine ⟨?_, by simpa using hex⟩
  exact (List.perm_insertionSort tagLe _).mem_iff.mpr hmem

/-! ### Parsing a rendered record sequence -/

/-- A record the codec can round-trip: 2-character tag, value of at most 99
characters. -/
def goodRec (p : Str × Str) : Prop := p.1.length = 2 ∧ p.2.length ≤ 99

instance : DecidablePred goodRec :=
  fun p => inferInstanceAs (Decidable (p.1.length = 2 ∧ p.2.length ≤ 99))

theorem pad2_len_ge1 (k : Nat) : 1 ≤ (pad2 k).length := by
  unfold pad2 padStart
  have := natToDec_len_pos k
  simp only [List.length_append, List.length_replicate]
  omega

theorem renderRecords_len (recs : List (Str × Str)) :
    recs.length ≤ (renderRecords recs).length := by
  induction recs with
  | nil => simp [renderRecords]
  | cons p rest ih =>
    have hr : renderRecords (p :: rest) =
        (p.1 ++ pad2 p.2.length ++ p.2) ++ renderRecords rest := by
      unfold renderRecords
      simp
    rw [hr]
    have := pad2_len_ge1 p.2.length
    simp only [List.length_append, List.length_cons]
    omega

theorem parseTLVGo_render :
    ∀ (recs : List (Str × Str)) (pre : Str) (m : List (Str × Str)) (fuel : Nat),
      (∀ p ∈ recs, goodRec p) → recs.length < fuel →
      parseTLVGo (pre ++ renderRecords recs) fuel (pre.length : Int) m =
        some (recs.foldl (fun acc p => mapSet acc p.1 p.2) m) := by
  intro recs
  induction recs with
  | nil =>
    intro pre m fuel _ hfuel
    obtain ⟨g, rfl⟩ : ∃ g, fuel = g + 1 := ⟨fuel - 1, by omega⟩
    have hr : renderRecords ([] : List (Str × Str)) = [] := rfl
    rw [hr, List.append_nil, parseTLVGo, if_neg (by omega)]
    rfl
  | cons rec rest ih =>
    intro pre m fuel hgood hfuel
    obtain ⟨t, v⟩ := rec
    have ht : t.length = 2 := (hgood (t, v) (by simp)).1
    have hv : v.length ≤ 99 := (hgood (t, v) (by simp)).2
    have hp2 : (pad2 v.length).length = 2 := pad2_length (by omega)
    obtain ⟨g, rfl⟩ : ∃ g, fuel = g + 1 := ⟨fuel - 1, by omega⟩
    have hrender : renderRecords ((t, v) :: rest) =
        t ++ (pad2 v.length ++ (v ++ renderRecords rest)) := by
      unfold renderRecords
      simp [List.append_assoc]
    rw [hrender]
    have hslen : (pre ++ (t ++ (pad2 v.length ++ (v ++ renderRecords rest)))).length =
        pre.length + (2 + (2 + (v.length + (renderRecords rest).length))) := by
      simp only [List.length_append, ht, hp2]
    have htag : jsSubstring (pre ++ (t ++ (pad2 v.length ++ (v ++ renderRecords rest))))
        ((pre.length : Int)) ((pre.length : Int) + 2) = t := by
      have e1 : ((pre.length : Int) + 2) = ((pre.length + t.length : Nat) : Int) := by
        omega
      rw [e1]
      exact jsSubstring_seg pre t _
    have hlenf : jsSubstring (pre ++ (t ++ (pad2 v.length ++ (v ++ renderRecords rest))))
        ((pre.length : Int) + 2) ((pre.length : Int) + 4) = pad2 v.length := by
      have ha : pre ++ (t ++ (pad2 v.length ++ (v ++ renderRecords rest))) =
          (pre ++ t) ++ (pad2 v.length ++ (v ++ renderRecords rest)) := by
        simp [List.append_assoc]
      have e1 : ((pre.length : Int) + 2) = (((pre ++ t).length : Nat) : Int) := by
        simp only [List.length_append, ht]
        omega
      have e2 : ((pre.length : Int) + 4) =
          (((pre ++ t).length + (pad2 v.length).length : Nat) : Int) := by
        simp only [List.length_append, ht, hp2]
        omega
      rw [ha, e1, e2]
      exact jsSubstring_seg (pre ++ t) (pad2 v.length) _
    have hval : jsSubstring (pre ++ (t ++ (pad2 v.length ++ (v ++ renderRecords rest))))
        ((pre.length : Int) + 4) ((pre.length : Int) + 4 + (v.length : Int)) = v := by
      have ha : pre ++ (t ++ (pad2 v.length ++ (v ++ renderRecords rest))) =
          (pre ++ t ++ pad2 v.length) ++ (v ++ renderRecords rest) := by
        simp [List.append_assoc]
      have e1 : ((pre.length : Int) + 4) = (((pre ++ t ++ pad2 v.length).length : Nat) : Int) := by
        simp only [List.length_append, ht, hp2]
        omega
      have e2 : ((pre.length : Int) + 4 + (v.length : Int)) =
          (((pre ++ t ++ pad2 v.length).length + v.length : Nat) : Int) := by
        simp only [List.length_append, ht, hp2]
        omega
      rw [ha, e2, e1]
      exact jsSubstring_seg (pre ++ t ++ pad2 v.length) v _
    rw [parseTLVGo]
    rw [if_pos (by rw [hslen]; omega)]
    simp only [htag, hlenf, jsParseInt_pad2 hv, hval]
    have hfin : ((pre.length : Int) + 4 + (v.length : Int)) =
        (((pre ++ (t ++ (pad2 v.length ++ v))).length : Nat) : Int) := by
      simp only [List.length_append, ht, hp2]
      omega
    have hafin : pre ++ (t ++ (pad2 v.length ++ (v ++ renderRecords rest))) =
        (pre ++ (t ++ (pad2 v.length ++ v))) ++ renderRecords rest := by
      simp [List.append_assoc]
    rw [hfin, hafin, List.foldl_cons]
    exact ih (pre ++ (t ++ (pad2 v.length ++ v))) (mapSet m t v) g
      (fun p hp => hgood p (by simp [hp])) (by simp at hfuel; omega)

/-! ### The transformer -/

theorem parseTLV_render (recs : List (Str × Str)) (hgood : ∀ p ∈ recs, goodRec p) :
    parseTLV (renderRecords recs) =
      some (recs.foldl (fun acc p => mapSet acc p.1 p.2) []) := by
  unfold parseTLV
  have h := parseTLVGo_render recs [] [] ((renderRecords recs).length + 120) hgood
    (by have := renderRecords_len recs; omega)
  simpa using h

theorem foldl_mapSet_fresh :
    ∀ (recs m : List (Str × Str)),
      (∀ k ∈ recs.map Prod.fst, k ∉ m.map Prod.fst) → (recs.map Prod.fst).Nodup →
      recs.foldl (fun acc p => mapSet acc p.1 p.2) m = m ++ recs := by
  intro recs
  induction recs with
  | nil => intro m _ _; simp
  | cons p rest ih =>
    intro m hfresh hnd
    rw [List.foldl_cons]
    have h1 : p.1 ∉ m.map Prod.fst := hfresh p.1 (by simp)
    have hset : mapSet m p.1 p.2 = m ++ [p] := by
      unfold mapSet
      rw [if_neg h1]
    rw [hset]
    have hnd2 : (p.1 :: rest.map Prod.fst).Nodup := by simpa using hnd
    rw [List.nodup_cons] at hnd2
    have hfresh2 : ∀ k ∈ rest.map Prod.fst, k ∉ (m ++ [p]).map Prod.fst := by
      intro k hk
      rw [List.map_append, List.mem_append]
      push_neg
      constructor
      · exact hfresh k (by simp [hk])
      · simp only [List.map_cons, List.map_nil, List.mem_singleton]
        intro e
        subst e
        exact hnd2.1 hk
    rw [ih (m ++ [p]) hfresh2 hnd2.2, List.append_assoc]
    rfl

theorem mem_keys_mapSet_self (m : List (Str × Str)) (k v : Str) :
    k ∈ (mapSet m k v).map Prod.fst := by
  by_cases h : k ∈ m.map Prod.fst
  · rw [keys_mapSet_mem v h]
    exact h
  · rw [keys_mapSet_notmem v h]
    simp

theorem mem_keys_mapSet_of_mem {m : List (Str × Str)} {q : Str} (k v : Str)
    (h : q ∈ m.map Prod.fst) : q ∈ (mapSet m k v).map Prod.fst := by
  by_cases hk : k ∈ m.map Prod.fst
  · rw [keys_mapSet_mem v hk]
    exact h
  · rw [keys_mapSet_notmem v hk]
    simp [h]

theorem generateDynamicQris_eq {p a : Str} {m : List (Str × Str)}
    (h : parseTLV (jsTrim p) = some m) :
    generateDynamicQris p a =
      some ((serializeTLV (mapSet (mapSet m tag01 ['1', '2']) tag54 a) [tag63] ++
          ['6', '3', '0', '4']) ++
        crc16 (serializeTLV (mapSet (mapSet m tag01 ['1', '2']) tag54 a) [tag63] ++
          ['6', '3', '0', '4'])) := by
  unfold generateDynamicQris
  rw [h]

theorem generateDynamicQris_some {p a r : Str} (h : generateDynamicQris p a = some r) :
    ∃ m, parseTLV (jsTrim p) = some m := by
  unfold generateDynamicQris at h
  cases hp : parseTLV (jsTrim p) with
  | none => rw [hp] at h; exact absurd h (by simp)
  | some m => exact ⟨m, rfl⟩

theorem exists_mid_split {r x y u mid w : Str} (hr : r = x ++ y)
    (hx : x = u ++ mid ++ w) : ∃ u2 w2, r = u2 ++ mid ++ w2 := by
  refine ⟨u, w ++ y, ?_⟩
  rw [hr, hx]
  simp [List.append_assoc]

/-- C2: whenever parsing succeeds, `generateDynamicQris` returns exactly the
re-serialization (tag 01 forced to "12", tag 54 set to the amount, tag 63
excluded) followed by `"6304"` and the CRC of that entire prefix; the
trailing 4 characters are reproduced by recomputing the CRC over everything
before them, and the output carries a tag-01 record with value "12" and a
tag-54 record with the supplied amount. -/
theorem claim_C2_transform_structure (p a r : Str)
    (h : generateDynamicQris p a = some r) :
    ∃ m, parseTLV (jsTrim p) = some m ∧
      r = serializeTLV (mapSet (mapSet m tag01 ['1', '2']) tag54 a) [tag63] ++
            (['6', '3', '0', '4'] ++
              crc16 (serializeTLV (mapSet (mapSet m tag01 ['1', '2']) tag54 a) [tag63] ++
                ['6', '3', '0', '4'])) ∧
      crc16 (r.take (r.length - 4)) = r.drop (r.length - 4) ∧
      (∃ u w, r = u ++ (tag01 ++ ['0', '2'] ++ ['1', '2']) ++ w) ∧
      (∃ u w, r = u ++ (tag54 ++ pad2 a.length ++ a) ++ w) := by
  obtain ⟨m, hm⟩ := generateDynamicQris_some h
  rw [generateDynamicQris_eq hm] at h
  have hr : r = (serializeTLV (mapSet (mapSet m tag01 ['1', '2']) tag54 a) [tag63] ++
      ['6', '3', '0', '4']) ++
      crc16 (serializeTLV (mapSet (mapSet m tag01 ['1', '2']) tag54 a) [tag63] ++
        ['6', '3', '0', '4']) := (Option.some_inj.mp h).symm
  have hr2 : r = serializeTLV (mapSet (mapSet m tag01 ['1', '2']) tag54 a) [tag63] ++
      (['6', '3', '0', '4'] ++
        crc16 (serializeTLV (mapSet (mapSet m tag01 ['1', '2']) tag54 a) [tag63] ++
          ['6', '3', '0', '4'])) := by
    rw [hr, List.append_assoc]
  refine ⟨m, hm, hr2, ?_, ?_, ?_⟩
  · have hlen4 := crc16_length (serializeTLV (mapSet (mapSet m tag01 ['1', '2']) tag54 a)
      [tag63] ++ ['6', '3', '0', '4'])
    have hlen : r.length = (serializeTLV (mapSet (mapSet m tag01 ['1', '2']) tag54 a)
        [tag63] ++ ['6', '3', '0', '4']).length + 4 := by
      rw [hr, List.length_append, hlen4]
    have e1 : r.length - 4 = (serializeTLV (mapSet (mapSet m tag01 ['1', '2']) tag54 a)
        [tag63] ++ ['6', '3', '0', '4']).length := by omega
    rw [e1, hr]
    rw [List.take_left, List.drop_left]
  · have h01mem : tag01 ∈ (mapSet (mapSet m tag01 ['1', '2']) tag54 a).map Prod.fst :=
      mem_keys_mapSet_of_mem tag54 a (mem_keys_mapSet_self m tag01 ['1', '2'])
    have hek := mem_emittedKeys [tag63] h01mem (by decide)
    obtain ⟨u, w, hw⟩ :=
      flatten_map_split (recordOf (mapSet (mapSet m tag01 ['1', '2']) tag54 a)) hek
    have hrec : recordOf (mapSet (mapSet m tag01 ['1', '2']) tag54 a) tag01 =
        tag01 ++ ['0', '2'] ++ ['1', '2'] := by
      unfold recordOf
      rw [assocLookup_mapSet_ne _ _ _ (by decide), assocLookup_mapSet_self]
      rfl
    have hser : serializeTLV (mapSet (mapSet m tag01 ['1', '2']) tag54 a) [tag63] =
        u ++ (tag01 ++ ['0', '2'] ++ ['1', '2']) ++ w := by
      rw [serializeTLV_eq, hw, hrec]
    exact exists_mid_split hr2 hser
  · have h54mem : tag54 ∈ (mapSet (mapSet m tag01 ['1', '2']) tag54 a).map Prod.fst :=
      mem_keys_mapSet_self _ tag54 a
    have hek := mem_emittedKeys [tag63] h54mem (by decide)
    obtain ⟨u, w, hw⟩ :=
      flatten_map_split (recordOf (mapSet (mapSet m tag01 ['1', '2']) tag54 a)) hek
    have hrec : recordOf (mapSet (mapSet m tag01 ['1', '2']) tag54 a) tag54 =
        tag54 ++ pad2 a.length ++ a := by
      unfold recordOf
      rw [assocLookup_mapSet_self]
      rfl
    have hser : serializeTLV (mapSet (mapSet m tag01 ['1', '2']) tag54 a) [tag63] =
        u ++ (tag54 ++ pad2 a.length ++ a) ++ w := by
      rw [serializeTLV_eq, hw, hrec]
    exact exists_mid_split hr2 hser

set_option maxRecDepth 10000

theorem claim_C2_witness :
    generateDynamicQris "000201".toList "5".toList =
        some "000201010212540156304B059".toList ∧
      (∃ m, parseTLV (jsTrim "000201".toList) = some m ∧
        "000201010212540156304B059".toList =
            serializeTLV (mapSet (mapSet m tag01 ['1', '2']) tag54 "5".toList) [tag63] ++
              (['6', '3', '0', '4'] ++
                crc16 (serializeTLV (mapSet (mapSet m tag01 ['1', '2']) tag54 "5".toList)
                    [tag63] ++ ['6', '3', '0', '4'])) ∧
          crc16 ("000201010212540156304B059".toList.take
              ("000201010212540156304B059".toList.length - 4)) =
            "000201010212540156304B059".toList.drop
              ("000201010212540156304B059".toList.length - 4) ∧
          (∃ u w, "000201010212540156304B059".toList =
            u ++ (tag01 ++ ['0', '2'] ++ ['1', '2']) ++ w) ∧
          (∃ u w, "000201010212540156304B059".toList =
            u ++ (tag54 ++ pad2 "5".toList.length ++ "5".toList) ++ w)) :=
  ⟨by decide, claim_C2_transform_structure "000201".toList "5".toList
    "000201010212540156304B059".toList (by decide)⟩

/-- C10: on every payload and amount on which `generateDynamicQris`
terminates, the try block completes without any exception — parsing accepts
the string (the fallback that returns the original payload is never taken) —
and the result ends with `"6304"` followed by exactly 4 uppercase hexadecimal
characters, even for inputs that are not valid TLV. -/
theorem claim_C10_no_exception_suffix (p a r : Str)
    (h : generateDynamicQris p a = some r) :
    (∃ m, parseTLV (jsTrim p) = some m) ∧ 8 ≤ r.length ∧
      ∃ u c4, r = u ++ ['6', '3', '0', '4'] ++ c4 ∧ c4.length = 4 ∧
        c4.all isHexUpperDigit = true := by
  obtain ⟨m, hm⟩ := generateDynamicQris_some h
  rw [generateDynamicQris_eq hm] at h
  have hr : r = (serializeTLV (mapSet (mapSet m tag01 ['1', '2']) tag54 a) [tag63] ++
      ['6', '3', '0', '4']) ++
      crc16 (serializeTLV (mapSet (mapSet m tag01 ['1', '2']) tag54 a) [tag63] ++
        ['6', '3', '0', '4']) := (Option.some_inj.mp h).symm
  have hlen4 := crc16_length (serializeTLV (mapSet (mapSet m tag01 ['1', '2']) tag54 a)
    [tag63] ++ ['6', '3', '0', '4'])
  refine ⟨⟨m, hm⟩, ?_, ?_⟩
  · rw [hr]
    simp only [List.length_append, hlen4, List.length_cons, List.length_nil]
    omega
  · refine ⟨serializeTLV (mapSet (mapSet m tag01 ['1', '2']) tag54 a) [tag63],
      crc16 (serializeTLV (mapSet (mapSet m tag01 ['1', '2']) tag54 a) [tag63] ++
        ['6', '3', '0', '4']), ?_, hlen4, crc16_all_hex _⟩
    rw [hr]

theorem claim_C10_witness :
    generateDynamicQris "zz".toList "7".toList =
        some "zz02zz0102125401763045B95".toList ∧
      ((∃ m, parseTLV (jsTrim "zz".toList) = some m) ∧
        8 ≤ "zz02zz0102125401763045B95".toList.length ∧
        ∃ u c4, "zz02zz0102125401763045B95".toList =
            u ++ ['6', '3', '0', '4'] ++ c4 ∧ c4.length = 4 ∧
          c4.all isHexUpperDigit = true) :=
  ⟨by decide, claim_C10_no_exception_suffix "zz".toList "7".toList
    "zz02zz0102125401763045B95".toList (by decide)⟩

/-! ### Digit tags and numeric ordering -/

theorem isDigit_toNat {c : Char} (h : c.isDigit = true) :
    48 ≤ c.toNat ∧ c.toNat ≤ 57 := by
  unfold Char.isDigit at h
  rw [Bool.and_eq_true] at h
  obtain ⟨h1, h2⟩ := h
  constructor
  · exact UInt32.le_toNat_of_le (by decide) (of_decide_eq_true h1)
  · exact UInt32.toNat_le_of_le (by decide) (of_decide_eq_true h2)

theorem isDigit_not_ws {c : Char} (h : c.isDigit = true) : isJsWhitespace c = false := by
  have hcn := isDigit_toNat h
  unfold isJsWhitespace
  simp only [List.mem_cons, List.not_mem_nil, or_false, decide_eq_false_iff_not]
  omega

theorem isDigit_ne_minus {c : Char} (h : c.isDigit = true) : c ≠ '-' := by
  have hcn := isDigit_toNat h
  intro e
  rw [e] at hcn
  have h45 : ('-' : Char).toNat = 45 := rfl
  omega

theorem isDigit_ne_plus {c : Char} (h : c.isDigit = true) : c ≠ '+' := by
  have hcn := isDigit_toNat h
  intro e
  rw [e] at hcn
  have h43 : ('+' : Char).toNat = 43 := rfl
  omega

theorem takeWhile_all {p : Char → Bool} :
    ∀ {l : Str}, (∀ c ∈ l, p c = true) → l.takeWhile p = l := by
  intro l
  induction l with
  | nil => intro _; rfl
  | cons c rest ih =>
    intro h
    simp only [List.takeWhile_cons, h c (by simp), if_true]
    rw [ih (fun d hd => h d (by simp [hd]))]

theorem jsParseInt_digits {t : Str} (hne : t ≠ []) (hd : ∀ c ∈ t, c.isDigit = true) :
    jsParseInt t = some ((decValue t : Nat) : Int) := by
  match t, hne with
  | c :: rest, _ =>
    have hc := hd c (by simp)
    have hws := isDigit_not_ws hc
    have hm := isDigit_ne_minus hc
    have hp := isDigit_ne_plus hc
    unfold jsParseInt
    rw [List.dropWhile_cons, hws]
    simp only [Bool.false_eq_true, if_false]
    rw [if_neg hm, if_neg hp]
    unfold digitsVal
    rw [takeWhile_all hd]
    simp

/-- A 2-character numeric tag, as in the spec's data model. -/
def isDigitTag (t : Str) : Prop := t.length = 2 ∧ ∀ c ∈ t, c.isDigit = true

instance : DecidablePred isDigitTag :=
  fun t => inferInstanceAs (Decidable (t.length = 2 ∧ ∀ c ∈ t, c.isDigit = true))

theorem intKey_digitTag {t : Str} (h : isDigitTag t) :
    intKey t = ((decValue t : Nat) : Int) := by
  unfold intKey
  rw [jsParseInt_digits (by intro e; rw [e] at h; exact absurd h.1 (by decide)) h.2]
  rfl

theorem mem_of_emittedKeys {tags : List (Str × Str)} {ex : List Str} {t : Str}
    (h : t ∈ emittedKeys tags ex) : t ∈ tags.map Prod.fst := by
  unfold emittedKeys at h
  have h2 := List.mem_of_mem_filter h
  exact (List.perm_insertionSort tagLe _).mem_iff.mp h2

theorem isDigitTag_of_mem {tags : List (Str × Str)} {t : Str}
    (hd : ∀ p ∈ tags, isDigitTag p.1) (h : t ∈ tags.map Prod.fst) : isDigitTag t := by
  obtain ⟨p, hp, rfl⟩ := List.mem_map.mp h
  exact hd p hp

/-- C6: for every tag mapping and exclusion list whose tags are 2-character
numeric strings, the records `serializeTLV` emits appear in non-decreasing
order of numeric tag value (the 2-character tag read as a base-10 integer),
regardless of the mapping's insertion order. -/
theorem claim_C6_numeric_order (tags : List (Str × Str)) (ex : List Str)
    (hd : ∀ p ∈ tags, isDigitTag p.1) :
    serializeTLV tags ex = ((emittedKeys tags ex).map (recordOf tags)).flatten ∧
      (emittedKeys tags ex).Pairwise (fun a b => decValue a ≤ decValue b) := by
  refine ⟨serializeTLV_eq tags ex, ?_⟩
  have hsorted : (List.insertionSort tagLe (tags.map Prod.fst)).Pairwise tagLe :=
    List.sorted_insertionSort tagLe _
  have hfilter : (emittedKeys tags ex).Pairwise tagLe := by
    unfold emittedKeys
    exact hsorted.filter _
  apply hfilter.imp_of_mem
  intro a b ha hb hab
  have hda := isDigitTag_of_mem hd (mem_of_emittedKeys ha)
  have hdb := isDigitTag_of_mem hd (mem_of_emittedKeys hb)
  have := hab
  unfold tagLe at this
  rw [intKey_digitTag hda, intKey_digitTag hdb] at this
  exact_mod_cast this

theorem claim_C6_witness :
    (∀ p ∈ [("58".toList, "ID".toList), ("00".toList, "01".toList),
        ("01".toList, "11".toList)], isDigitTag p.1) ∧
      (serializeTLV [("58".toList, "ID".toList), ("00".toList, "01".toList),
          ("01".toList, "11".toList)] ["01".toList] =
        ((emittedKeys [("58".toList, "ID".toList), ("00".toList, "01".toList),
            ("01".toList, "11".toList)] ["01".toList]).map
          (recordOf [("58".toList, "ID".toList), ("00".toList, "01".toList),
            ("01".toList, "11".toList)])).flatten ∧
        (emittedKeys [("58".toList, "ID".toList), ("00".toList, "01".toList),
            ("01".toList, "11".toList)] ["01".toList]).Pairwise
          (fun a b => decValue a ≤ decValue b)) :=
  ⟨by decide, claim_C6_numeric_order _ _ (by decide)⟩

/-- C9: `serializeTLV` performs no oversized-value check: a record whose
value exceeds 99 characters is emitted without any error, with a length
field of more than 2 digits, corrupting the fixed-width TLV framing. -/
theorem claim_C9_oversized (m : List (Str × Str)) (t v : Str) (ex : List Str)
    (hnd : (m.map Prod.fst).Nodup) (hmem : (t, v) ∈ m) (hlen : 99 < v.length)
    (hex : t ∉ ex) :
    2 < (pad2 v.length).length ∧
      ∃ u w, serializeTLV m ex = u ++ (t ++ pad2 v.length ++ v) ++ w := by
  constructor
  · have := @pad2_len_ge3 v.length (by omega)
    omega
  · have hkm : t ∈ m.map Prod.fst := List.mem_map.mpr ⟨(t, v), hmem, rfl⟩
    have hek := mem_emittedKeys ex hkm hex
    obtain ⟨u, w, hw⟩ := flatten_map_split (recordOf m) hek
    have hrec : recordOf m t = t ++ pad2 v.length ++ v := by
      unfold recordOf
      rw [assocLookup_of_mem_nodup hnd hmem]
      rfl
    exact ⟨u, w, by rw [serializeTLV_eq, hw, hrec]⟩

theorem claim_C9_witness :
    ((([("00".toList, List.replicate 100 'a')] : List (Str × Str)).map Prod.fst).Nodup ∧
        ("00".toList, List.replicate 100 'a') ∈
          ([("00".toList, List.replicate 100 'a')] : List (Str × Str)) ∧
        99 < (List.replicate 100 'a').length ∧ "00".toList ∉ ([] : List Str)) ∧
      2 < (pad2 (List.replicate 100 'a').length).length ∧
      ∃ u w, serializeTLV [("00".toList, List.replicate 100 'a')] [] =
        u ++ ("00".toList ++ pad2 (List.replicate 100 'a').length ++
          List.replicate 100 'a') ++ w :=
  ⟨⟨by decide, by decide, by decide, by decide⟩,
    claim_C9_oversized [("00".toList, List.replicate 100 'a')] "00".toList
      (List.replicate 100 'a') [] (by decide) (by decide) (by decide) (by decide)⟩

/-! ### Round-trip -/

theorem assocLookup_map_keys (f : Str → Str) :
    ∀ (l : List Str) (t : Str), t ∈ l →
      assocLookup (l.map (fun s => (s, f s))) t = some (f t) := by
  intro l
  induction l with
  | nil => intro t ht; simp at ht
  | cons s rest ih =>
    intro t ht
    simp only [List.map_cons]
    by_cases hs : s = t
    · subst hs
      simp [assocLookup]
    · simp only [assocLookup, if_neg hs]
      rcases List.mem_cons.mp ht with h | h
      · exact absurd h.symm hs
      · exact ih t h

theorem keys_map_pair (f : Str → Str) (l : List Str) :
    (l.map (fun s => (s, f s))).map Prod.fst = l := by
  induction l with
  | nil => rfl
  | cons s rest ih => simp [ih]

theorem assocLookup_map_keys_none (f : Str → Str) (l : List Str) (t : Str)
    (ht : t ∉ l) : assocLookup (l.map (fun s => (s, f s))) t = none := by
  apply assocLookup_eq_none
  rw [keys_map_pair]
  exact ht

theorem emittedKeys_nil_ex (m : List (Str × Str)) :
    emittedKeys m [] = List.insertionSort tagLe (m.map Prod.fst) := by
  unfold emittedKeys
  apply List.filter_eq_self.mpr
  intro a _
  simp

/-- C4: for every tag mapping (unique 2-character tags) all of whose values
are at most 99 characters long, parsing the serialization succeeds and yields
exactly the same mapping (the same value association for every tag). -/
theorem claim_C4_roundtrip (m : List (Str × Str))
    (hnd : (m.map Prod.fst).Nodup)
    (hgood : ∀ p ∈ m, p.1.length = 2 ∧ p.2.length ≤ 99) :
    ∃ m2, parseTLV (serializeTLV m []) = some m2 ∧
      ∀ t, assocLookup m2 t = assocLookup m t := by
  have hperm : List.Perm (emittedKeys m []) (m.map Prod.fst) := by
    rw [emittedKeys_nil_ex]
    exact List.perm_insertionSort tagLe _
  have hndek : (emittedKeys m []).Nodup := hperm.nodup_iff.mpr hnd
  have hser : serializeTLV m [] =
      renderRecords ((emittedKeys m []).map
        (fun t => (t, (assocLookup m t).getD []))) := by
    rw [serializeTLV_eq]
    unfold renderRecords
    rw [List.map_map]
    rfl
  have hgoodrecs : ∀ p ∈ (emittedKeys m []).map
      (fun t => (t, (assocLookup m t).getD [])), goodRec p := by
    intro p hp
    obtain ⟨t, htm, rfl⟩ := List.mem_map.mp hp
    have hkm : t ∈ m.map Prod.fst := hperm.mem_iff.mp htm
    obtain ⟨v, hv⟩ := assocLookup_isSome_of_mem hkm
    have hmem := assocLookup_mem hv
    have hg := hgood (t, v) hmem
    constructor
    · exact hg.1
    · rw [hv]
      exact hg.2
  have hparse := parseTLV_render _ hgoodrecs
  rw [← hser] at hparse
  have hkeys : (((emittedKeys m []).map
      (fun t => (t, (assocLookup m t).getD []))).map Prod.fst) = emittedKeys m [] :=
    keys_map_pair _ _
  have hfold : ((emittedKeys m []).map
        (fun t => (t, (assocLookup m t).getD []))).foldl
        (fun acc p => mapSet acc p.1 p.2) [] =
      (emittedKeys m []).map (fun t => (t, (assocLookup m t).getD [])) := by
    rw [foldl_mapSet_fresh _ _ (by simp) (by rw [hkeys]; exact hndek)]
    rfl
  refine ⟨_, hparse, ?_⟩
  intro t
  rw [hfold]
  by_cases htm : t ∈ m.map Prod.fst
  · have htek : t ∈ emittedKeys m [] := hperm.mem_iff.mpr htm
    rw [assocLookup_map_keys _ _ _ htek]
    obtain ⟨v, hv⟩ := assocLookup_isSome_of_mem htm
    rw [hv]
    rfl
  · have htek : t ∉ emittedKeys m [] := fun h => htm (hperm.mem_iff.mp h)
    rw [assocLookup_map_keys_none _ _ _ htek, assocLookup_eq_none htm]

theorem claim_C4_witness :
    ((([("58".toList, "ID".toList), ("00".toList, "01".toList)] :
        List (Str × Str)).map Prod.fst).Nodup ∧
      (∀ p ∈ ([("58".toList, "ID".toList), ("00".toList, "01".toList)] :
        List (Str × Str)), p.1.length = 2 ∧ p.2.length ≤ 99)) ∧
      ∃ m2, parseTLV (serializeTLV
          [("58".toList, "ID".toList), ("00".toList, "01".toList)] []) = some m2 ∧
        ∀ t, assocLookup m2 t =
          assocLookup [("58".toList, "ID".toList), ("00".toList, "01".toList)] t :=
  ⟨⟨by decide, by decide⟩,
    claim_C4_roundtrip [("58".toList, "ID".toList), ("00".toList, "01".toList)]
      (by decide) (by decide)⟩

/-! ### Frame analysis of the transformer on well-formed payloads -/

/-- Tag 01's value replaced by "12", all other records unchanged. -/
def set01 (l : List (Str × Str)) : List (Str × Str) :=
  l.map (fun p => if p.1 = tag01 then (tag01, ['1', '2']) else p)

/-- The tag-54 record replaced in place, or inserted at its numeric
position when absent. -/
def upsert54 (a : Str) (l : List (Str × Str)) : List (Str × Str) :=
  if tag54 ∈ l.map Prod.fst then
    l.map (fun p => if p.1 = tag54 then (tag54, a) else p)
  else
    l.takeWhile (fun p => decide (decValue p.1 < 54)) ++
      (tag54, a) :: l.dropWhile (fun p => decide (decValue p.1 < 54))

/-- The record sequence the claim's frame condition predicts. -/
def expectedRecs (a : Str) (body : List (Str × Str)) : List (Str × Str) :=
  upsert54 a (set01 body)

theorem char_toNat_inj {a b : Char} (h : a.toNat = b.toNat) : a = b :=
  Char.ext (UInt32.toNat.inj h)

theorem digitTag_inj {t s : Str} (ht : isDigitTag t) (hs : isDigitTag s)
    (h : decValue t = decValue s) : t = s := by
  obtain ⟨hlt, hdt⟩ := ht
  obtain ⟨hls, hds⟩ := hs
  match t, s, hlt, hls with
  | [c1, c2], [d1, d2], _, _ =>
    have hc1 := isDigit_toNat (hdt c1 (by simp))
    have hc2 := isDigit_toNat (hdt c2 (by simp))
    have hd1 := isDigit_toNat (hds d1 (by simp))
    have hd2 := isDigit_toNat (hds d2 (by simp))
    unfold decValue at h
    simp only [List.foldl_cons, List.foldl_nil] at h
    have e1 : c1.toNat = d1.toNat := by omega
    have e2 : c2.toNat = d2.toNat := by omega
    rw [char_toNat_inj e1, char_toNat_inj e2]

theorem keys_map_replace (k : Str) (v : Str) (l : List (Str × Str)) :
    (l.map (fun p => if p.1 = k then (k, v) else p)).map Prod.fst = l.map Prod.fst := by
  induction l with
  | nil => rfl
  | cons p rest ih =>
    simp only [List.map_cons, ih]
    by_cases hp : p.1 = k
    · rw [if_pos hp]
      simp [hp]
    · rw [if_neg hp]

theorem map_fst_takeWhile (q : Str → Bool) (l : List (Str × Str)) :
    (l.takeWhile (fun p => q p.1)).map Prod.fst = (l.map Prod.fst).takeWhile q := by
  induction l with
  | nil => rfl
  | cons p rest ih =>
    simp only [List.takeWhile_cons, List.map_cons]
    by_cases hq : q p.1
    · simp [hq, ih]
    · simp [hq]

theorem map_fst_dropWhile (q : Str → Bool) (l : List (Str × Str)) :
    (l.dropWhile (fun p => q p.1)).map Prod.fst = (l.map Prod.fst).dropWhile q := by
  induction l with
  | nil => rfl
  | cons p rest ih =>
    simp only [List.dropWhile_cons, List.map_cons]
    by_cases hq : q p.1
    · simp [hq, ih]
    · simp [hq]

theorem dropWhile_lt_ge (k : Nat) :
    ∀ (l : List Str), l.Pairwise (fun a b => decValue a < decValue b) →
      ∀ x ∈ l.dropWhile (fun t => decide (decValue t < k)), k ≤ decValue x := by
  intro l
  induction l with
  | nil => intro _ x hx; simp at hx
  | cons t rest ih =>
    intro hp x hx
    rw [List.dropWhile_cons] at hx
    by_cases ht : decValue t < k
    · rw [if_pos (by simpa using ht)] at hx
      exact ih hp.of_cons x hx
    · rw [if_neg (by simpa using ht)] at hx
      rcases List.mem_cons.mp hx with h1 | h1
      · subst h1
        omega
      · have := (List.pairwise_cons.mp hp).1 x h1
        omega

theorem eq_of_perm_map_eq (f : Str → Nat) :
    ∀ (l1 l2 : List Str), List.Perm l1 l2 → l1.map f = l2.map f →
      (l1.map f).Nodup → l1 = l2 := by
  intro l1
  induction l1 with
  | nil =>
    intro l2 hp _ _
    exact List.Perm.nil_eq hp
  | cons a t1 ih =>
    intro l2 hp hm hnd
    match l2 with
    | [] => exact absurd hp.symm (by simp)
    | b :: t2 =>
      simp only [List.map_cons, List.cons.injEq] at hm
      have hab : a = b := by
        have hmem : a ∈ b :: t2 := hp.mem_iff.mp (by simp)
        rcases List.mem_cons.mp hmem with h1 | h1
        · exact h1
        · exfalso
          have : f a ∈ t2.map f := List.mem_map.mpr ⟨a, h1, rfl⟩
          rw [← hm.2] at this
          rw [List.map_cons, List.nodup_cons] at hnd
          exact hnd.1 (hm.1 ▸ this)
      subst hab
      have hpt : List.Perm t1 t2 := List.Perm.cons_inv hp
      rw [ih t2 hpt hm.2 (by rw [List.map_cons, List.nodup_cons] at hnd; exact hnd.2)]

theorem eq_of_perm_sorted_nodup (f : Str → Nat) (l1 l2 : List Str)
    (hp : List.Perm l1 l2) (hs1 : (l1.map f).Pairwise (· ≤ ·))
    (hs2 : (l2.map f).Pairwise (· ≤ ·)) (hnd : (l1.map f).Nodup) : l1 = l2 := by
  have hmp : List.Perm (l1.map f) (l2.map f) := hp.map f
  have hme : l1.map f = l2.map f := List.eq_of_perm_of_sorted hmp hs1 hs2
  exact eq_of_perm_map_eq f l1 l2 hp hme hnd

theorem map_keys_pair_eq (g : Str → Option Str) :
    ∀ (l : List (Str × Str)), (∀ p ∈ l, g p.1 = some p.2) →
      (l.map Prod.fst).map (fun t => (t, (g t).getD [])) = l := by
  intro l
  induction l with
  | nil => intro _; rfl
  | cons p rest ih =>
    intro h
    simp only [List.map_cons, List.cons.injEq]
    constructor
    · rw [h p (by simp)]
      simp
    · exact ih (fun q hq => h q (by simp [hq]))

theorem sorted_tagLe_of_vals {l : List Str} (hd : ∀ t ∈ l, isDigitTag t)
    (hs : l.Pairwise (fun a b => decValue a < decValue b)) : l.Pairwise tagLe := by
  apply hs.imp_of_mem
  intro a b ha hb hab
  unfold tagLe
  rw [intKey_digitTag (hd a ha), intKey_digitTag (hd b hb)]
  exact_mod_cast le_of_lt hab

theorem serialize_expected (body tl : List (Str × Str)) (a c63 : Str)
    (htl : tl = [] ∨ tl = [(tag63, c63)])
    (hdig : ∀ p ∈ body ++ tl, isDigitTag p.1)
    (hsorted : (body ++ tl).Pairwise (fun p q => decValue p.1 < decValue q.1))
    (h01 : tag01 ∈ body.map Prod.fst)
    (h63 : tag63 ∉ body.map Prod.fst) :
    serializeTLV (mapSet (mapSet (body ++ tl) tag01 ['1', '2']) tag54 a) [tag63] =
      renderRecords (expectedRecs a body) := by
  have hkeysorted : ((body ++ tl).map Prod.fst).Pairwise
      (fun s t => decValue s < decValue t) := (List.pairwise_map).mpr hsorted
  have hkeynd : ((body ++ tl).map Prod.fst).Nodup :=
    hkeysorted.imp (fun h => fun e => absurd (e ▸ h) (lt_irrefl _))
  have hdigkeys : ∀ t ∈ (body ++ tl).map Prod.fst, isDigitTag t := by
    intro t ht
    obtain ⟨p, hp, rfl⟩ := List.mem_map.mp ht
    exact hdig p hp
  have hkeq : (set01 body).map Prod.fst = body.map Prod.fst := by
    unfold set01
    exact keys_map_replace _ _ _
  have htlkeys : tl.map Prod.fst = [] ∨ tl.map Prod.fst = [tag63] := by
    rcases htl with h | h <;> subst h <;> simp
  have hndb : (body.map Prod.fst).Nodup := by
    have h2 := hkeynd
    rw [List.map_append] at h2
    exact (List.nodup_append.mp h2).1
  have hm1 : mapSet (body ++ tl) tag01 ['1', '2'] = set01 body ++ tl := by
    unfold mapSet
    rw [if_pos (by rw [List.map_append, List.mem_append]; exact Or.inl h01)]
    rw [List.map_append]
    unfold set01
    congr 1
    rcases htl with h | h <;> subst h
    · rfl
    · simp only [List.map_cons, List.map_nil]
      rw [if_neg (by decide)]
  rw [hm1]
  by_cases hm54 : tag54 ∈ body.map Prod.fst
  · -- tag 54 already present: replaced in place
    have hm2 : mapSet (set01 body ++ tl) tag54 a = expectedRecs a body ++ tl := by
      unfold mapSet
      rw [if_pos (by rw [List.map_append, hkeq, List.mem_append]; exact Or.inl hm54)]
      rw [List.map_append]
      unfold expectedRecs upsert54
      rw [if_pos (by rw [hkeq]; exact hm54)]
      congr 1
      rcases htl with h | h <;> subst h
      · rfl
      · simp only [List.map_cons, List.map_nil]
        rw [if_neg (by decide)]
    rw [hm2]
    have hkeq2 : (expectedRecs a body).map Prod.fst = body.map Prod.fst := by
      unfold expectedRecs upsert54
      rw [if_pos (by rw [hkeq]; exact hm54)]
      rw [keys_map_replace, hkeq]
    have hsortkeys : ((body ++ tl).map Prod.fst).Pairwise tagLe :=
      sorted_tagLe_of_vals hdigkeys hkeysorted
    have hinssort : List.insertionSort tagLe ((expectedRecs a body ++ tl).map Prod.fst) =
        (body ++ tl).map Prod.fst := by
      have he : (expectedRecs a body ++ tl).map Prod.fst = (body ++ tl).map Prod.fst := by
        rw [List.map_append, hkeq2, List.map_append]
      rw [he]
      exact List.Sorted.insertionSort_eq hsortkeys
    have hek : emittedKeys (expectedRecs a body ++ tl) [tag63] =
        (expectedRecs a body).map Prod.fst := by
      unfold emittedKeys
      rw [hinssort, List.map_append, List.filter_append]
      have hb : (body.map Prod.fst).filter (fun t => decide (t ∉ [tag63])) =
          body.map Prod.fst := by
        apply List.filter_eq_self.mpr
        intro t htm
        simp only [decide_eq_true_eq, List.mem_singleton]
        intro hmem63
        subst hmem63
        exact h63 htm
      have htf : (tl.map Prod.fst).filter (fun t => decide (t ∉ [tag63])) = [] := by
        rcases htlkeys with h | h <;> rw [h]
        · rfl
        · simp
      rw [hb, htf, List.append_nil, hkeq2]
    have hndexp : ((expectedRecs a body).map Prod.fst).Nodup := by
      rw [hkeq2]
      exact hndb
    have hlk : ∀ p ∈ expectedRecs a body,
        assocLookup (expectedRecs a body ++ tl) p.1 = some p.2 := by
      intro p hp
      exact assocLookup_append_left _ (assocLookup_of_mem_nodup hndexp hp)
    have hrecs : ((emittedKeys (expectedRecs a body ++ tl) [tag63]).map
        (fun t => (t, (assocLookup (expectedRecs a body ++ tl) t).getD []))) =
        expectedRecs a body := by
      rw [hek]
      exact map_keys_pair_eq _ _ hlk
    rw [serializeTLV_eq]
    have hcomp : (emittedKeys (expectedRecs a body ++ tl) [tag63]).map
        (recordOf (expectedRecs a body ++ tl)) =
        ((emittedKeys (expectedRecs a body ++ tl) [tag63]).map
          (fun t => (t, (assocLookup (expectedRecs a body ++ tl) t).getD []))).map
          (fun p => p.1 ++ pad2 p.2.length ++ p.2) := by
      rw [List.map_map]
      rfl
    rw [hcomp, hrecs]
    rfl
  · -- tag 54 absent: appended by the map, placed by the sort
    have h54tl : tag54 ∉ tl.map Prod.fst := by
      rcases htlkeys with h | h <;> rw [h]
      · simp
      · simp only [List.mem_singleton]
        decide
    have h54m1 : tag54 ∉ (set01 body ++ tl).map Prod.fst := by
      rw [List.map_append, hkeq, List.mem_append]
      push_neg
      exact ⟨hm54, h54tl⟩
    have hm2 : mapSet (set01 body ++ tl) tag54 a = (set01 body ++ tl) ++ [(tag54, a)] := by
      unfold mapSet
      rw [if_neg h54m1]
    rw [hm2]
    have hkm2 : ((set01 body ++ tl) ++ [(tag54, a)]).map Prod.fst =
        (body.map Prod.fst ++ tl.map Prod.fst) ++ [tag54] := by
      rw [List.map_append, List.map_append, hkeq]
      rfl
    -- facts about the key values
    have hsplit := List.pairwise_append.mp
      (by rw [List.map_append] at hkeysorted; exact hkeysorted)
    have htw : ∀ x ∈ (body.map Prod.fst).takeWhile (fun t => decide (decValue t < 54)),
        decValue x < 54 := by
      intro x hx
      have := List.mem_takeWhile_imp hx
      simpa using this
    have hdw : ∀ x ∈ (body.map Prod.fst).dropWhile (fun t => decide (decValue t < 54)),
        54 ≤ decValue x := dropWhile_lt_ge 54 _ hsplit.1
    have htwsub : ∀ x ∈ (body.map Prod.fst).takeWhile (fun t => decide (decValue t < 54)),
        x ∈ body.map Prod.fst := fun x hx => (List.takeWhile_sublist _).subset hx
    have hdwsub : ∀ x ∈ (body.map Prod.fst).dropWhile (fun t => decide (decValue t < 54)),
        x ∈ body.map Prod.fst := fun x hx => (List.dropWhile_sublist _).subset hx
    have htk63 : ∀ y ∈ tl.map Prod.fst, decValue y = 63 := by
      intro y hy
      rcases htlkeys with h | h <;> rw [h] at hy
      · simp at hy
      · simp only [List.mem_singleton] at hy
        subst hy
        rfl
    have hbk63 : ∀ x ∈ body.map Prod.fst, ∀ y ∈ tl.map Prod.fst,
        decValue x < decValue y := hsplit.2.2
    -- the expected sorted key list
    have hEK : List.insertionSort tagLe
          (((set01 body ++ tl) ++ [(tag54, a)]).map Prod.fst) =
        (body.map Prod.fst).takeWhile (fun t => decide (decValue t < 54)) ++
          tag54 :: ((body.map Prod.fst).dropWhile (fun t => decide (decValue t < 54)) ++
            tl.map Prod.fst) := by
      rw [hkm2]
      apply eq_of_perm_sorted_nodup decValue
      · -- permutation
        have hp1 : List.Perm
            (List.insertionSort tagLe ((body.map Prod.fst ++ tl.map Prod.fst) ++ [tag54]))
            ((body.map Prod.fst ++ tl.map Prod.fst) ++ [tag54]) :=
          List.perm_insertionSort tagLe _
        have hp2 : List.Perm ((body.map Prod.fst ++ tl.map Prod.fst) ++ [tag54])
            (tag54 :: (body.map Prod.fst ++ tl.map Prod.fst)) :=
          List.perm_append_singleton _ _
        have hp3 : List.Perm
            ((body.map Prod.fst).takeWhile (fun t => decide (decValue t < 54)) ++
              tag54 :: ((body.map Prod.fst).dropWhile (fun t => decide (decValue t < 54)) ++
                tl.map Prod.fst))
            (tag54 :: (body.map Prod.fst ++ tl.map Prod.fst)) := by
          have hmid := @List.perm_middle Str tag54
            ((body.map Prod.fst).takeWhile (fun t => decide (decValue t < 54)))
            ((body.map Prod.fst).dropWhile (fun t => decide (decValue t < 54)) ++
              tl.map Prod.fst)
          apply hmid.trans
          apply List.Perm.cons
          rw [← List.append_assoc, List.takeWhile_append_dropWhile]
        exact (hp1.trans hp2).trans hp3.symm
      · -- the sort's output is sorted
        have hs := List.sorted_insertionSort tagLe
          ((body.map Prod.fst ++ tl.map Prod.fst) ++ [tag54])
        have hmemall : ∀ t ∈ List.insertionSort tagLe
            ((body.map Prod.fst ++ tl.map Prod.fst) ++ [tag54]), isDigitTag t := by
          intro t ht
          have := (List.perm_insertionSort tagLe _).mem_iff.mp ht
          rcases List.mem_append.mp this with h1 | h1
          · have : t ∈ (body ++ tl).map Prod.fst := by
              rw [List.map_append]
              exact h1
            exact hdigkeys t this
          · simp only [List.mem_singleton] at h1
            subst h1
            decide
        apply (List.pairwise_map).mpr
        apply hs.imp_of_mem
        intro x y hx hy hxy
        have hdx := hmemall x hx
        have hdy := hmemall y hy
        have := hxy
        unfold tagLe at this
        rw [intKey_digitTag hdx, intKey_digitTag hdy] at this
        exact_mod_cast this
      · -- the expected list is sorted
        apply (List.pairwise_map).mpr
        rw [List.pairwise_append]
        refine ⟨?_, ?_, ?_⟩
        · exact (List.Pairwise.sublist (List.takeWhile_sublist _) hsplit.1).imp
            (fun h => le_of_lt h)
        · rw [List.pairwise_cons]
          refine ⟨?_, ?_⟩
          · intro y hy
            rcases List.mem_append.mp hy with h1 | h1
            · have h54 : (54 : Nat) ≤ decValue y := hdw y h1
              have hv54 : decValue tag54 = 54 := rfl
              omega
            · have := htk63 y h1
              have hv54 : decValue tag54 = 54 := rfl
              omega
          · rw [List.pairwise_append]
            refine ⟨(List.Pairwise.sublist (List.dropWhile_sublist _) hsplit.1).imp
              (fun h => le_of_lt h), hsplit.2.1.imp (fun h => le_of_lt h), ?_⟩
            intro x hx y hy
            exact le_of_lt (hbk63 x (hdwsub x hx) y hy)
        · intro x hx y hy
          have hxv := htw x hx
          rcases List.mem_cons.mp hy with h1 | h1
          · subst h1
            have hv54 : decValue tag54 = 54 := rfl
            omega
          · rcases List.mem_append.mp h1 with h2 | h2
            · have := hdw y h2
              omega
            · have := htk63 y h2
              omega
      · -- values are distinct
        have hperm2 : List.Perm
            ((List.insertionSort tagLe
              ((body.map Prod.fst ++ tl.map Prod.fst) ++ [tag54])).map decValue)
            ((((body.map Prod.fst ++ tl.map Prod.fst) ++ [tag54])).map decValue) :=
          (List.perm_insertionSort tagLe _).map decValue
        apply hperm2.nodup_iff.mpr
        rw [List.map_append]
        rw [List.nodup_append]
        have hvnd : ((body.map Prod.fst ++ tl.map Prod.fst).map decValue).Nodup := by
          have hne : ((body ++ tl).map Prod.fst).Pairwise
              (fun s t => decValue s < decValue t) := hkeysorted
          have h2 : (((body ++ tl).map Prod.fst).map decValue).Pairwise (· < ·) :=
            (List.pairwise_map).mpr hne
          have h3 := h2.imp (fun h => Nat.ne_of_lt h)
          rw [List.map_append] at h3
          exact h3
        refine ⟨hvnd, by simp, ?_⟩
        intro x hx hx54
        simp only [List.map_cons, List.map_nil, List.mem_singleton] at hx54
        subst hx54
        obtain ⟨t, htm, hveq⟩ := List.mem_map.mp hx
        have hdt : isDigitTag t := by
          apply hdigkeys
          rw [List.map_append]
          exact htm
        have ht54 : t = tag54 := by
          apply digitTag_inj hdt (by decide)
          rw [hveq]
        subst ht54
        rcases List.mem_append.mp htm with h1 | h1
        · exact hm54 h1
        · exact h54tl h1
    have hek : emittedKeys ((set01 body ++ tl) ++ [(tag54, a)]) [tag63] =
        (body.map Prod.fst).takeWhile (fun t => decide (decValue t < 54)) ++
          tag54 :: (body.map Prod.fst).dropWhile (fun t => decide (decValue t < 54)) := by
      unfold emittedKeys
      rw [hEK, List.filter_append]
      have hb63 : ∀ x ∈ body.map Prod.fst, (decide (x ∉ [tag63])) = true := by
        intro x hx
        simp only [decide_eq_true_eq, List.mem_singleton]
        intro e
        subst e
        exact h63 hx
      have hfw : ((body.map Prod.fst).takeWhile
            (fun t => decide (decValue t < 54))).filter (fun t => decide (t ∉ [tag63])) =
          (body.map Prod.fst).takeWhile (fun t => decide (decValue t < 54)) :=
        List.filter_eq_self.mpr (fun x hx => hb63 x (htwsub x hx))
      rw [hfw, List.filter_cons]
      have h54t : (decide (tag54 ∉ [tag63])) = true := by decide
      rw [h54t]
      simp only [if_true]
      rw [List.filter_append]
      have hfd : ((body.map Prod.fst).dropWhile
            (fun t => decide (decValue t < 54))).filter (fun t => decide (t ∉ [tag63])) =
          (body.map Prod.fst).dropWhile (fun t => decide (decValue t < 54)) :=
        List.filter_eq_self.mpr (fun x hx => hb63 x (hdwsub x hx))
      have hft : (tl.map Prod.fst).filter (fun t => decide (t ∉ [tag63])) = [] := by
        rcases htlkeys with h | h <;> rw [h]
        · rfl
        · simp
      rw [hfd, hft, List.append_nil]
    have hekexp : emittedKeys ((set01 body ++ tl) ++ [(tag54, a)]) [tag63] =
        (expectedRecs a body).map Prod.fst := by
      rw [hek]
      unfold expectedRecs upsert54
      rw [if_neg (by rw [hkeq]; exact hm54), List.map_append, List.map_cons,
        map_fst_takeWhile (fun t => decide (decValue t < 54)) (set01 body),
        map_fst_dropWhile (fun t => decide (decValue t < 54)) (set01 body), hkeq]
    have hndset : ((set01 body).map Prod.fst).Nodup := by
      rw [hkeq]
      exact hndb
    have hlk : ∀ p ∈ expectedRecs a body,
        assocLookup ((set01 body ++ tl) ++ [(tag54, a)]) p.1 = some p.2 := by
      intro p hp
      unfold expectedRecs upsert54 at hp
      rw [if_neg (by rw [hkeq]; exact hm54)] at hp
      rcases List.mem_append.mp hp with h1 | h1
      · have hmem : p ∈ set01 body := (List.takeWhile_sublist _).subset h1
        exact assocLookup_append_left _
          (assocLookup_append_left _ (assocLookup_of_mem_nodup hndset hmem))
      · rcases List.mem_cons.mp h1 with h2 | h2
        · subst h2
          rw [assocLookup_append_right _ h54m1]
          simp [assocLookup]
        · have hmem : p ∈ set01 body := (List.dropWhile_sublist _).subset h2
          exact assocLookup_append_left _
            (assocLookup_append_left _ (assocLookup_of_mem_nodup hndset hmem))
    have hrecs : ((emittedKeys ((set01 body ++ tl) ++ [(tag54, a)]) [tag63]).map
        (fun t => (t, (assocLookup ((set01 body ++ tl) ++ [(tag54, a)]) t).getD []))) =
        expectedRecs a body := by
      rw [hekexp]
      exact map_keys_pair_eq _ _ hlk
    rw [serializeTLV_eq]
    have hcomp : (emittedKeys ((set01 body ++ tl) ++ [(tag54, a)]) [tag63]).map
        (recordOf ((set01 body ++ tl) ++ [(tag54, a)])) =
        ((emittedKeys ((set01 body ++ tl) ++ [(tag54, a)]) [tag63]).map
          (fun t => (t, (assocLookup ((set01 body ++ tl) ++ [(tag54, a)]) t).getD []))).map
          (fun p => p.1 ++ pad2 p.2.length ++ p.2) := by
      rw [List.map_map]
      rfl
    rw [hcomp, hrecs]
    rfl

/-- C5 (amended): on a well-formed static payload — records in increasing
numeric tag order with unique 2-character numeric tags and values of at most
99 characters, tag 01 present, tag 63 at most as the final record — whose
rendering is unchanged by whitespace trimming, and for every amount string,
the transformer's output is exactly the input's records with tag 01's value
forced to "12", a tag-54 record carrying the amount replaced in place or
inserted at its numeric position, the tag-63 record dropped, and the
recomputed "6304"+checksum record appended; every other record is
byte-identical and keeps its relative order. -/
theorem claim_C5_frame_effect (body tl : List (Str × Str)) (a c63 : Str)
    (htl : tl = [] ∨ tl = [(tag63, c63)])
    (hgood : ∀ p ∈ body ++ tl, goodRec p)
    (hdig : ∀ p ∈ body ++ tl, isDigitTag p.1)
    (hsorted : (body ++ tl).Pairwise (fun p q => decValue p.1 < decValue q.1))
    (h01 : tag01 ∈ body.map Prod.fst)
    (h63 : tag63 ∉ body.map Prod.fst)
    (htrim : jsTrim (renderRecords (body ++ tl)) = renderRecords (body ++ tl)) :
    generateDynamicQris (renderRecords (body ++ tl)) a =
      some (renderRecords (expectedRecs a body) ++
        (['6', '3', '0', '4'] ++
          crc16 (renderRecords (expectedRecs a body) ++ ['6', '3', '0', '4']))) ∧
      ∀ p ∈ body, p.1 ≠ tag01 → p.1 ≠ tag54 → p ∈ expectedRecs a body := by
  have hkeysorted : ((body ++ tl).map Prod.fst).Pairwise
      (fun s t => decValue s < decValue t) := (List.pairwise_map).mpr hsorted
  have hkeynd : ((body ++ tl).map Prod.fst).Nodup :=
    hkeysorted.imp (fun h => fun e => absurd (e ▸ h) (lt_irrefl _))
  have hparse : parseTLV (renderRecords (body ++ tl)) = some (body ++ tl) := by
    rw [parseTLV_render (body ++ tl) hgood,
      foldl_mapSet_fresh (body ++ tl) [] (by simp) hkeynd]
    rfl
  have hm : parseTLV (jsTrim (renderRecords (body ++ tl))) = some (body ++ tl) := by
    rw [htrim]
    exact hparse
  constructor
  · rw [generateDynamicQris_eq hm,
      serialize_expected body tl a c63 htl hdig hsorted h01 h63, List.append_assoc]
  · intro p hp hp01 hp54
    unfold expectedRecs upsert54
    by_cases hm54 : tag54 ∈ (set01 body).map Prod.fst
    · rw [if_pos hm54]
      apply List.mem_map.mpr
      refine ⟨p, ?_, by rw [if_neg hp54]⟩
      unfold set01
      exact List.mem_map.mpr ⟨p, hp, by rw [if_neg hp01]⟩
    · rw [if_neg hm54]
      have hpmem : p ∈ set01 body := by
        unfold set01
        exact List.mem_map.mpr ⟨p, hp, by rw [if_neg hp01]⟩
      rw [← List.takeWhile_append_dropWhile
        (fun q => decide (decValue q.1 < 54)) (set01 body)] at hpmem
      rcases List.mem_append.mp hpmem with h1 | h1
      · exact List.mem_append_left _ h1
      · exact List.mem_append_right _ (List.mem_cons_of_mem _ h1)

/-- C5 counterexample: the claim as stated fails without a no-trimming
proviso.  The payload rendered from records (01, "11"), (62, "x ") is
well-formed — numeric 2-character tags strictly increasing, values within 99
characters, tag 01 present, no tag 63 — yet because its final value ends in
a space, `trim` shortens it, the 62 record re-serializes as "6201x", and the
input's byte-identical record "6202x " appears nowhere in the output. -/
theorem claim_C5_counterexample :
    (∀ p ∈ ([(tag01, "11".toList), ("62".toList, "x ".toList)] : List (Str × Str)),
        goodRec p ∧ isDigitTag p.1) ∧
      ([(tag01, "11".toList), ("62".toList, "x ".toList)] :
          List (Str × Str)).Pairwise (fun p q => decValue p.1 < decValue q.1) ∧
      tag01 ∈ ([(tag01, "11".toList), ("62".toList, "x ".toList)] :
          List (Str × Str)).map Prod.fst ∧
      tag63 ∉ ([(tag01, "11".toList), ("62".toList, "x ".toList)] :
          List (Str × Str)).map Prod.fst ∧
      (generateDynamicQris
          (renderRecords [(tag01, "11".toList), ("62".toList, "x ".toList)])
          "5".toList).isSome = true ∧
      ¬ ("6202x ".toList <:+: ((generateDynamicQris
          (renderRecords [(tag01, "11".toList), ("62".toList, "x ".toList)])
          "5".toList).getD [])) := by
  decide

theorem claim_C5_witness :
    generateDynamicQris (renderRecords [("00".toList, "01".toList), (tag01, "11".toList),
        ("58".toList, "ID".toList), (tag63, "ABCD".toList)]) "10000".toList =
      some (renderRecords (expectedRecs "10000".toList
          [("00".toList, "01".toList), (tag01, "11".toList), ("58".toList, "ID".toList)]) ++
        (['6', '3', '0', '4'] ++
          crc16 (renderRecords (expectedRecs "10000".toList
              [("00".toList, "01".toList), (tag01, "11".toList),
                ("58".toList, "ID".toList)]) ++
            ['6', '3', '0', '4']))) :=
  (claim_C5_frame_effect
    [("00".toList, "01".toList), (tag01, "11".toList), ("58".toList, "ID".toList)]
    [(tag63, "ABCD".toList)] "10000".toList "ABCD".toList
    (Or.inr rfl) (by decide) (by decide) (by decide) (by decide) (by decide)
    (by decide)).1
